import Mathlib

/-!
Verification of the tabd positional-tracking and provenance engine.

This file gives a shallow embedding, in Lean 4, of the core of the tabd
VS Code extension (src/extendedRange.ts, src/positionalTracking.ts,
src/decorators.ts rev. with mergeRangesSequentially / mergeUserEdits /
deduplicateRanges, and the save path of src/extension.ts), together with
theorems settling the frozen claims C1 through C10 about that code.

Modelling conventions:
* vscode.Position is a pair of Int coordinates (the source uses JS numbers
  that stay integral in all the code under study); lexicographic order.
* vscode.Range normalises its endpoints on construction (the vscode API
  swaps start and end when start is not before or equal to end); the
  constructor mkExtendedRange reproduces that.
* Strings of the source are List Char; JS trim, includes, split-counting
  and lastIndexOf-slicing are given as executable list functions.
* Date.now() is modelled as one constant, now, per engine call.
* The document (offsetAt / positionAt oracle) and the external clipboard
  and VCS lookups (checkRecentPaste, resolveIDEPaste) are interface
  boundaries per the spec; they are modelled as oracle fields of the
  environment record, so every theorem quantifies over their behaviour.
-/

namespace Tabd

/-- vscode.Position: a zero-based (line, character) pair. -/
structure Pos where
  line : Int
  character : Int
deriving DecidableEq, Repr

/-- vscode Position.isBefore: strict lexicographic order. -/
def posIsBefore (a b : Pos) : Bool :=
  a.line < b.line || (a.line == b.line && a.character < b.character)

/-- vscode Position.isBeforeOrEqual: non-strict lexicographic order. -/
def posIsBeforeOrEqual (a b : Pos) : Bool :=
  a.line < b.line || (a.line == b.line && a.character <= b.character)

/-- vscode Position.isEqual. -/
def posIsEqual (a b : Pos) : Bool :=
  a == b

/-- A range as a plain pair of positions (the fields of vscode.Range). -/
structure PlainRange where
  start : Pos
  endPos : Pos
deriving DecidableEq, Repr

/-- vscode.Range constructor semantics: if start is not before or equal
to end, the two positions are swapped. -/
def mkPlainRange (a b : Pos) : PlainRange :=
  if posIsBeforeOrEqual a b then ⟨a, b⟩ else ⟨b, a⟩

/-- vscode Range.isEmpty: start equals end. -/
def rangeIsEmpty (r : PlainRange) : Bool :=
  posIsEqual r.start r.endPos

/-- vscode Range.contains for a position: start ≤ p ≤ end. -/
def rangeContainsPos (r : PlainRange) (p : Pos) : Bool :=
  posIsBeforeOrEqual r.start p && posIsBeforeOrEqual p r.endPos

/-- Truthiness of vscode Range.intersection: the intersection is defined
(possibly empty) iff max of the starts is not after min of the ends. -/
def rangesIntersect (a b : PlainRange) : Bool :=
  posIsBeforeOrEqual a.start b.endPos && posIsBeforeOrEqual b.start a.endPos

/-- One entry of TextDocumentContentChangeEvent: the replaced range and the
replacement text.  rangeOffset and rangeLength are carried by the host type
but never read by the code under study, so they are omitted. -/
structure Change where
  range : PlainRange
  text : List Char
deriving DecidableEq, Repr

/-- Number of newline characters in a text; equals
text.split('\n').length - 1 of the source. -/
def nlCount (t : List Char) : Nat :=
  t.count '\n'

/-- Length of the text after its last newline; equals
text.slice(text.lastIndexOf('\n') + 1).length of the source (the source
only evaluates this when a newline is present). -/
def lenAfterLastNl (t : List Char) : Nat :=
  (t.reverse.takeWhile (fun c => c != '\n')).length

/-- positionalTracking.ts getUpdatedPosition: rewrite one position under
one content change. -/
def getUpdatedPosition (position : Pos) (change : Change) : Pos :=
  let newLine := position.line
  let newCharacter := position.character
  if posIsBeforeOrEqual change.range.endPos position then
    -- change consisted in deletion
    let newCharacter :=
      if !(posIsEqual change.range.start change.range.endPos) then
        if change.range.endPos.line == newLine then
          newCharacter - (change.range.endPos.character - change.range.start.character)
        else newCharacter
      else newCharacter
    let newLine :=
      if !(posIsEqual change.range.start change.range.endPos) then
        newLine - (change.range.endPos.line - change.range.start.line)
      else newLine
    -- change consisted in insertion
    if change.text ≠ [] then
      let newCharacter :=
        if change.range.start.line == newLine then
          if nlCount change.text > 0 then
            newCharacter - change.range.start.character + (lenAfterLastNl change.text : Int)
          else
            newCharacter + (change.text.length : Int)
        else newCharacter
      let newLine := newLine + (nlCount change.text : Int)
      ⟨newLine, newCharacter⟩
    else ⟨newLine, newCharacter⟩
  else ⟨newLine, newCharacter⟩

/-- Modelled from the wording of claim C2 (spec section 4.1): return p
unchanged when re > p; otherwise first the deletion adjustment (when
rs < re: subtract the column delta if re.line equals p.line, then subtract
the line delta), then the insertion adjustment on the running position
(when the replacement is non-empty: if rs.line equals the
deletion-adjusted line, set the column to len-after-last-newline plus the
running column minus rs.column when the replacement has a newline, else
add the replacement length; then add the newline count to the line). -/
def shiftSpec (p : Pos) (e : Change) : Pos :=
  if !(posIsBeforeOrEqual e.range.endPos p) then p
  else
    let rs := e.range.start
    let re := e.range.endPos
    let afterDeletion : Pos :=
      if posIsBefore rs re then
        ⟨p.line - (re.line - rs.line),
         if re.line == p.line then p.character - (re.character - rs.character)
         else p.character⟩
      else p
    if e.text ≠ [] then
      let nl := nlCount e.text
      let column :=
        if rs.line == afterDeletion.line then
          if nl > 0 then
            (lenAfterLastNl e.text : Int) + (afterDeletion.character - rs.character)
          else afterDeletion.character + (e.text.length : Int)
        else afterDeletion.character
      ⟨afterDeletion.line + (nl : Int), column⟩
    else afterDeletion

/-- Lexicographic order as a proposition, for reasoning. -/
def posLe (a b : Pos) : Prop :=
  a.line < b.line ∨ (a.line = b.line ∧ a.character ≤ b.character)

instance (a b : Pos) : Decidable (posLe a b) :=
  inferInstanceAs (Decidable (a.line < b.line ∨ (a.line = b.line ∧ a.character ≤ b.character)))

theorem posIsBeforeOrEqual_iff (a b : Pos) :
    posIsBeforeOrEqual a b = true ↔ posLe a b := by
  simp [posIsBeforeOrEqual, posLe]

theorem posIsBefore_iff (a b : Pos) :
    posIsBefore a b = true ↔
      (a.line < b.line ∨ (a.line = b.line ∧ a.character < b.character)) := by
  simp [posIsBefore]

end Tabd

namespace Tabd

theorem posIsBefore_of_le_ne (a b : Pos) (h : posIsBeforeOrEqual a b = true)
    (hne : a ≠ b) : posIsBefore a b = true := by
  obtain ⟨al, ac⟩ := a
  obtain ⟨bl, bc⟩ := b
  simp [posIsBeforeOrEqual] at h
  simp [Pos.mk.injEq] at hne
  simp [posIsBefore]
  omega

theorem posIsBefore_self_false (a : Pos) : posIsBefore a a = false := by
  simp [posIsBefore]

/-- C2: under a well-formed edit range (rs ≤ re), getUpdatedPosition
computes exactly the position described by the claim: unchanged when
re > p, else deletion adjustment followed by insertion adjustment. -/
theorem getUpdatedPosition_eq_shiftSpec (p : Pos) (e : Change)
    (h : posIsBeforeOrEqual e.range.start e.range.endPos = true) :
    getUpdatedPosition p e = shiftSpec p e := by
  obtain ⟨pl, pc⟩ := p
  obtain ⟨⟨rs, re⟩, txt⟩ := e
  simp only [getUpdatedPosition, shiftSpec] at *
  by_cases hb : posIsBeforeOrEqual re ⟨pl, pc⟩ = true
  · simp only [hb, Bool.not_true, if_true]
    by_cases heq : (rs == re) = true
    · have hrs : rs = re := by exact eq_of_beq heq
      subst hrs
      simp [posIsEqual, posIsBefore_self_false]
      split_ifs <;> simp [Pos.mk.injEq] <;> omega
    · have hlt : posIsBefore rs re = true :=
        posIsBefore_of_le_ne rs re h (by simpa using heq)
      simp [posIsEqual, heq, hlt]
      split_ifs <;> simp [Pos.mk.injEq] <;> omega
  · simp [hb]

end Tabd

namespace Tabd

/-- A change whose range is well formed (start ≤ end) and whose range
coordinates are all non-negative, as the data model requires. -/
def wellFormedChange (e : Change) : Prop :=
  posIsBeforeOrEqual e.range.start e.range.endPos = true ∧
  0 ≤ e.range.start.line ∧ 0 ≤ e.range.start.character ∧
  0 ≤ e.range.endPos.line ∧ 0 ≤ e.range.endPos.character

instance (e : Change) : Decidable (wellFormedChange e) :=
  inferInstanceAs (Decidable (_ ∧ _ ∧ _ ∧ _ ∧ _))

theorem getUpdatedPosition_nonneg (p : Pos) (e : Change)
    (hp : 0 ≤ p.line ∧ 0 ≤ p.character) (he : wellFormedChange e) :
    0 ≤ (getUpdatedPosition p e).line ∧ 0 ≤ (getUpdatedPosition p e).character := by
  obtain ⟨pl, pc⟩ := p
  obtain ⟨⟨⟨rsl, rsc⟩, ⟨rel, rec0⟩⟩, txt⟩ := e
  obtain ⟨hwf, h1, h2, h3, h4⟩ := he
  obtain ⟨hp1, hp2⟩ := hp
  dsimp only at h1 h2 h3 h4 hp1 hp2
  have hwf2 : rsl < rel ∨ (rsl = rel ∧ rsc ≤ rec0) := by
    simpa [posIsBeforeOrEqual] using hwf
  clear hwf
  simp only [getUpdatedPosition]
  by_cases hb : posIsBeforeOrEqual ⟨rel, rec0⟩ ⟨pl, pc⟩ = true
  · have hb2 : rel < pl ∨ (rel = pl ∧ rec0 ≤ pc) := by
      simpa [posIsBeforeOrEqual] using hb
    clear hb
    rw [if_pos (by simpa [posIsBeforeOrEqual] using hb2)]
    split_ifs
    all_goals dsimp only
    all_goals
      simp only [posIsEqual, beq_iff_eq, Pos.mk.injEq, Bool.not_eq_true,
        Bool.not_eq_false, beq_eq_false_iff_ne, ne_eq, not_and, gt_iff_lt,
        Bool.not_eq_eq_eq_not, Bool.not_true] at *
    all_goals constructor
    all_goals omega
  · rw [if_neg hb]
    exact ⟨hp1, hp2⟩

end Tabd

namespace Tabd

/-- C9: for every position with non-negative coordinates and well-formed
edits, shift (getUpdatedPosition) returns a position with non-negative
line and column, and composing two shifts also never produces a negative
coordinate. -/
theorem shift_preserves_nonneg (p : Pos) (e1 e2 : Change)
    (hp : 0 ≤ p.line ∧ 0 ≤ p.character)
    (h1 : wellFormedChange e1) (h2 : wellFormedChange e2) :
    (0 ≤ (getUpdatedPosition p e1).line ∧
     0 ≤ (getUpdatedPosition p e1).character) ∧
    (0 ≤ (getUpdatedPosition (getUpdatedPosition p e1) e2).line ∧
     0 ≤ (getUpdatedPosition (getUpdatedPosition p e1) e2).character) := by
  have step1 := getUpdatedPosition_nonneg p e1 hp h1
  exact ⟨step1, getUpdatedPosition_nonneg (getUpdatedPosition p e1) e2 step1 h2⟩

/-- Witness for C9 at a concrete input: p = (2,5), a deletion of
[(0,1),(1,0)] followed by an insertion of two characters at (1,2). -/
theorem shift_preserves_nonneg_witness :
    (0 ≤ (2 : Int) ∧ 0 ≤ (5 : Int)) ∧
    wellFormedChange ⟨⟨⟨0, 1⟩, ⟨1, 0⟩⟩, []⟩ ∧
    wellFormedChange ⟨⟨⟨1, 2⟩, ⟨1, 2⟩⟩, ['a', 'b']⟩ ∧
    ((0 ≤ (getUpdatedPosition ⟨2, 5⟩ ⟨⟨⟨0, 1⟩, ⟨1, 0⟩⟩, []⟩).line ∧
      0 ≤ (getUpdatedPosition ⟨2, 5⟩ ⟨⟨⟨0, 1⟩, ⟨1, 0⟩⟩, []⟩).character) ∧
     (0 ≤ (getUpdatedPosition (getUpdatedPosition ⟨2, 5⟩ ⟨⟨⟨0, 1⟩, ⟨1, 0⟩⟩, []⟩)
            ⟨⟨⟨1, 2⟩, ⟨1, 2⟩⟩, ['a', 'b']⟩).line ∧
      0 ≤ (getUpdatedPosition (getUpdatedPosition ⟨2, 5⟩ ⟨⟨⟨0, 1⟩, ⟨1, 0⟩⟩, []⟩)
            ⟨⟨⟨1, 2⟩, ⟨1, 2⟩⟩, ['a', 'b']⟩).character)) :=
  ⟨by decide, by decide, by decide,
    shift_preserves_nonneg ⟨2, 5⟩ ⟨⟨⟨0, 1⟩, ⟨1, 0⟩⟩, []⟩ ⟨⟨⟨1, 2⟩, ⟨1, 2⟩⟩, ['a', 'b']⟩
      (by decide) (by decide) (by decide)⟩

/-- Witness for C2 at a concrete input: p = (0,5), replacement of
[(0,1),(0,3)] by the two characters xy. -/
theorem getUpdatedPosition_eq_shiftSpec_witness :
    posIsBeforeOrEqual
      (Change.mk ⟨⟨0, 1⟩, ⟨0, 3⟩⟩ ['x', 'y']).range.start
      (Change.mk ⟨⟨0, 1⟩, ⟨0, 3⟩⟩ ['x', 'y']).range.endPos = true ∧
    getUpdatedPosition ⟨0, 5⟩ (Change.mk ⟨⟨0, 1⟩, ⟨0, 3⟩⟩ ['x', 'y']) =
      shiftSpec ⟨0, 5⟩ (Change.mk ⟨⟨0, 1⟩, ⟨0, 3⟩⟩ ['x', 'y']) :=
  ⟨by decide, getUpdatedPosition_eq_shiftSpec ⟨0, 5⟩ _ (by decide)⟩

end Tabd

namespace Tabd

/-- Closed set of provenance kinds (extendedRange.ts ExtendedRangeType). -/
inductive ExtendedRangeType where
  | Unknown
  | UserEdit
  | AIGenerated
  | UndoRedo
  | Paste
  | IDEPaste
deriving DecidableEq, Repr

/-- Optional provenance metadata (extendedRange.ts ExtendedRangeOptions).
The source keeps string-or-undefined fields and reads them only through
getters that default to the empty string, so absence is modelled as the
empty string. -/
structure ExtendedRangeOptions where
  pasteUrl : String := ""
  pasteTitle : String := ""
  aiName : String := ""
  aiModel : String := ""
  aiExplanation : String := ""
  aiType : String := ""
deriving DecidableEq, Repr

/-- extendedRange.ts ExtendedRange: a vscode.Range plus provenance. -/
structure ExtendedRange where
  start : Pos
  endPos : Pos
  rangeType : ExtendedRangeType
  creationTimestamp : Int
  author : String
  options : ExtendedRangeOptions
deriving DecidableEq, Repr

/-- The ExtendedRange constructor; its vscode.Range super-constructor
swaps the endpoints when start is not before or equal to end. -/
def mkExtendedRange (a b : Pos) (t : ExtendedRangeType) (ts : Int)
    (author : String) (options : ExtendedRangeOptions) : ExtendedRange :=
  if posIsBeforeOrEqual a b then ⟨a, b, t, ts, author, options⟩
  else ⟨b, a, t, ts, author, options⟩

/-- The range part of an ExtendedRange. -/
def ExtendedRange.plain (r : ExtendedRange) : PlainRange :=
  ⟨r.start, r.endPos⟩

/-- The order induced by the position comparator the source passes to
Array.prototype.sort: first start line, then start character. -/
def byStartLE (a b : ExtendedRange) : Prop :=
  a.start.line < b.start.line ∨
    (a.start.line = b.start.line ∧ a.start.character ≤ b.start.character)

instance : DecidableRel byStartLE := fun a b =>
  inferInstanceAs (Decidable (a.start.line < b.start.line ∨
    (a.start.line = b.start.line ∧ a.start.character ≤ b.start.character)))

instance : IsTotal ExtendedRange byStartLE := by
  constructor; intro a b; unfold byStartLE; omega

instance : IsTrans ExtendedRange byStartLE := by
  constructor; intro a b c; unfold byStartLE; omega

/-- JS Array.prototype.sort is stable; with the total preorder byStartLE
the stable sorted order is unique and equals non-strict insertion sort. -/
def sortByStart (l : List ExtendedRange) : List ExtendedRange :=
  List.insertionSort byStartLE l

/-- The field-wise comparison used by decorators.ts deduplicateRanges.
The source compares both endpoints, the type, the timestamp, the author
and the getters of every option except getAiType, which it omits. -/
def sameRangeKey (a b : ExtendedRange) : Bool :=
  posIsEqual a.start b.start && posIsEqual a.endPos b.endPos &&
  a.rangeType == b.rangeType &&
  a.creationTimestamp == b.creationTimestamp &&
  a.author == b.author &&
  a.options.pasteUrl == b.options.pasteUrl &&
  a.options.pasteTitle == b.options.pasteTitle &&
  a.options.aiName == b.options.aiName &&
  a.options.aiModel == b.options.aiModel &&
  a.options.aiExplanation == b.options.aiExplanation

/-- decorators.ts deduplicateRanges: keep each range unless an already
kept range matches it on the compared fields. -/
def deduplicateRanges (ranges : List ExtendedRange) : List ExtendedRange :=
  ranges.foldl
    (fun uniqueRanges range =>
      if uniqueRanges.any (fun existing => sameRangeKey existing range) then
        uniqueRanges
      else uniqueRanges ++ [range])
    []

/-- Propositional form of sameRangeKey. -/
def sameKeyProp (a b : ExtendedRange) : Prop :=
  a.start = b.start ∧ a.endPos = b.endPos ∧ a.rangeType = b.rangeType ∧
  a.creationTimestamp = b.creationTimestamp ∧ a.author = b.author ∧
  a.options.pasteUrl = b.options.pasteUrl ∧
  a.options.pasteTitle = b.options.pasteTitle ∧
  a.options.aiName = b.options.aiName ∧
  a.options.aiModel = b.options.aiModel ∧
  a.options.aiExplanation = b.options.aiExplanation

instance (a b : ExtendedRange) : Decidable (sameKeyProp a b) :=
  inferInstanceAs (Decidable (_ ∧ _ ∧ _ ∧ _ ∧ _ ∧ _ ∧ _ ∧ _ ∧ _ ∧ _))

theorem sameRangeKey_iff (a b : ExtendedRange) :
    sameRangeKey a b = true ↔ sameKeyProp a b := by
  simp [sameRangeKey, sameKeyProp, posIsEqual, Bool.and_assoc]

theorem sameKeyProp_symm (a b : ExtendedRange) (h : sameKeyProp a b) :
    sameKeyProp b a := by
  obtain ⟨h1, h2, h3, h4, h5, h6, h7, h8, h9, h10⟩ := h
  exact ⟨h1.symm, h2.symm, h3.symm, h4.symm, h5.symm, h6.symm, h7.symm,
    h8.symm, h9.symm, h10.symm⟩

end Tabd

namespace Tabd

/-- The strict-overlap test of decorators.ts mergeRangesSequentially:
existing.start before new.end and new.start before existing.end. -/
def overlapsStrictly (existing newRange : ExtendedRange) : Bool :=
  posIsBefore existing.start newRange.endPos &&
  posIsBefore newRange.start existing.endPos

/-- A slice of an existing range, carrying its fields (the four slice
constructions of mergeRangesSequentially all have this shape). -/
def sliceOf (src : ExtendedRange) (a b : Pos) : ExtendedRange :=
  mkExtendedRange a b src.rangeType src.creationTimestamp src.author src.options

/-- The slice is pushed only when its constructed endpoints differ. -/
def slicePiece (src : ExtendedRange) (a b : Pos) : List ExtendedRange :=
  let r := sliceOf src a b
  if !(posIsEqual r.start r.endPos) then [r] else []

/-- One step of the overlap-resolution loop of mergeRangesSequentially:
given the accumulated resulting ranges and the should-add flag, process
one overlapping existing range. -/
def resolveOne (newRange : ExtendedRange)
    (acc : List ExtendedRange × Bool) (existingRange : ExtendedRange) :
    List ExtendedRange × Bool :=
  if newRange.creationTimestamp > existingRange.creationTimestamp then
    -- New range is newer, so it takes precedence; keep non-empty slices
    -- of the existing range outside the new range.
    if posIsBefore existingRange.start newRange.start &&
       posIsBefore newRange.endPos existingRange.endPos then
      (acc.1 ++ slicePiece existingRange existingRange.start newRange.start
        ++ slicePiece existingRange newRange.endPos existingRange.endPos, acc.2)
    else
      (acc.1 ++
        (if posIsBefore existingRange.start newRange.start then
          slicePiece existingRange existingRange.start newRange.start else []) ++
        (if posIsBefore newRange.endPos existingRange.endPos then
          slicePiece existingRange newRange.endPos existingRange.endPos else []),
       acc.2)
  else
    -- Existing range is newer; trim the new range instead, keep the
    -- existing range, and never add the full new range.
    if posIsBefore newRange.start existingRange.start &&
       posIsBefore existingRange.endPos newRange.endPos then
      (acc.1 ++ slicePiece newRange newRange.start existingRange.start
        ++ slicePiece newRange existingRange.endPos newRange.endPos
        ++ [existingRange], false)
    else
      (acc.1 ++
        (if posIsBefore newRange.start existingRange.start then
          slicePiece newRange newRange.start existingRange.start else []) ++
        (if posIsBefore existingRange.endPos newRange.endPos then
          slicePiece newRange existingRange.endPos newRange.endPos else []) ++
        [existingRange],
       false)

/-- decorators.ts mergeRangesSequentially: fold every new range into the
store, resolving strict overlaps by timestamp precedence, then
deduplicate and sort by (start.line, start.character). -/
def mergeRangesSequentially (existingRanges newRanges : List ExtendedRange) :
    List ExtendedRange :=
  let mergedRanges := newRanges.foldl
    (fun merged newRange =>
      let rangesToProcess := merged.filter (fun ex => overlapsStrictly ex newRange)
      let remaining := merged.filter (fun ex => !(overlapsStrictly ex newRange))
      if rangesToProcess.isEmpty then
        remaining ++ [newRange]
      else
        let res := rangesToProcess.foldl (resolveOne newRange) ([], true)
        remaining ++ res.1 ++ (if res.2 then [newRange] else []))
    existingRanges
  sortByStart (deduplicateRanges mergedRanges)

/-- decorators.ts mergeUserEdits predicate. -/
def isUserEdit (r : ExtendedRange) : Bool :=
  r.rangeType == ExtendedRangeType.UserEdit

/-- Last element of the current group, represented as first plus rest. -/
def groupLast (first : ExtendedRange) (rest : List ExtendedRange) : ExtendedRange :=
  (rest.getLast?).getD first

/-- Minimum creation timestamp of the current group. -/
def groupMinTs (first : ExtendedRange) (rest : List ExtendedRange) : Int :=
  rest.foldl (fun m r => min m r.creationTimestamp) first.creationTimestamp

/-- Emit one adjacency group: a group of size one passes through, a
larger group collapses to one UserEdit from the first start to the last
end, with the minimum timestamp and the first element's author and
options (decorators.ts mergeUserEdits group processing). -/
def emitGroup (first : ExtendedRange) (rest : List ExtendedRange) :
    List ExtendedRange :=
  if rest.isEmpty then [first]
  else
    [mkExtendedRange first.start (groupLast first rest).endPos
      ExtendedRangeType.UserEdit (groupMinTs first rest) first.author first.options]

/-- The grouping condition: the current range joins the group when the
previous range's end equals its start and the absolute timestamp
difference is below 60000 ms. -/
def joinsGroup (previous cur : ExtendedRange) : Bool :=
  posIsEqual previous.endPos cur.start &&
  decide ((cur.creationTimestamp - previous.creationTimestamp).natAbs < 60000)

/-- The pair walk of mergeUserEdits over the position-sorted user edits. -/
def walkGroups (first : ExtendedRange) (rest : List ExtendedRange) :
    List ExtendedRange → List ExtendedRange
  | [] => emitGroup first rest
  | cur :: more =>
      if joinsGroup (groupLast first rest) cur then
        walkGroups first (rest ++ [cur]) more
      else
        emitGroup first rest ++ walkGroups cur [] more

/-- decorators.ts mergeUserEdits (the Edit Coalescer): sort the UserEdit
ranges by position, collapse adjacency groups within the 60 s window,
pass everything else through. -/
def mergeUserEdits (userEdits : List ExtendedRange) : List ExtendedRange :=
  let userEditRanges := sortByStart (userEdits.filter isUserEdit)
  if userEditRanges.length ≤ 1 then userEdits
  else
    let nonUserEdits := userEdits.filter (fun r => !(isUserEdit r))
    (match userEditRanges with
     | [] => []
     | h :: t => walkGroups h [] t) ++ nonUserEdits

end Tabd

namespace Tabd

theorem sameRangeKey_eq_false_of (a b : ExtendedRange) (h : ¬ sameKeyProp a b) :
    sameRangeKey a b = false := by
  rcases hk : sameRangeKey a b with _ | _
  · rfl
  · exact absurd ((sameRangeKey_iff a b).mp hk) h

theorem dedup_foldl_pairwise (l acc : List ExtendedRange)
    (h : List.Pairwise (fun a b => sameRangeKey a b = false) acc) :
    List.Pairwise (fun a b => sameRangeKey a b = false)
      (l.foldl
        (fun uniqueRanges range =>
          if uniqueRanges.any (fun existing => sameRangeKey existing range) then
            uniqueRanges
          else uniqueRanges ++ [range])
        acc) := by
  induction l generalizing acc with
  | nil => exact h
  | cons r t ih =>
      simp only [List.foldl_cons]
      by_cases hany : (acc.any fun existing => sameRangeKey existing r) = true
      · rw [if_pos hany]; exact ih acc h
      · rw [if_neg hany]
        refine ih _ ?_
        rw [List.pairwise_append]
        refine ⟨h, List.pairwise_singleton _ _, ?_⟩
        intro a ha b hb
        simp only [List.mem_singleton] at hb
        subst hb
        simp only [List.any_eq_true, not_exists, not_and] at hany
        have := hany a ha
        simp only [Bool.not_eq_true] at this
        exact this

theorem deduplicateRanges_pairwise (l : List ExtendedRange) :
    List.Pairwise (fun a b => sameRangeKey a b = false) (deduplicateRanges l) :=
  dedup_foldl_pairwise l [] (List.Pairwise.nil)

theorem dedup_foldl_eq_self (l acc : List ExtendedRange)
    (hl : List.Pairwise (fun a b => sameRangeKey a b = false) l)
    (hcross : ∀ r ∈ l, ∀ a ∈ acc, sameRangeKey a r = false) :
    (l.foldl
        (fun uniqueRanges range =>
          if uniqueRanges.any (fun existing => sameRangeKey existing range) then
            uniqueRanges
          else uniqueRanges ++ [range])
        acc) = acc ++ l := by
  induction l generalizing acc with
  | nil => simp
  | cons r t ih =>
      simp only [List.foldl_cons]
      have hany : (acc.any fun existing => sameRangeKey existing r) = false := by
        simp only [List.any_eq_false]
        intro a ha
        simp [hcross r (by simp) a ha]
      rw [if_neg (by simp [hany])]
      rw [List.pairwise_cons] at hl
      rw [ih (acc ++ [r]) hl.2]
      · simp
      · intro x hx a ha
        rcases List.mem_append.mp ha with ha | ha
        · exact hcross x (by simp [hx]) a ha
        · simp only [List.mem_singleton] at ha
          subst ha
          exact hl.1 x hx

theorem deduplicateRanges_eq_self (l : List ExtendedRange)
    (hl : List.Pairwise (fun a b => sameRangeKey a b = false) l) :
    deduplicateRanges l = l := by
  have := dedup_foldl_eq_self l [] hl (by intro r _ a ha; simp at ha)
  simpa [deduplicateRanges] using this

end Tabd

namespace Tabd

/-- C8 (amended): after mergeSequentially no two intervals of the result
agree on all of start, end, kind, creation timestamp, author, pasteUrl,
pasteTitle, aiName, aiModel and aiExplanation; the aiType field is not
part of the comparison, so intervals differing only in aiType count as
duplicates and are not both kept. -/
theorem mergeRangesSequentially_no_key_duplicates
    (existingRanges newRanges : List ExtendedRange) :
    List.Pairwise (fun a b => ¬ sameKeyProp a b)
      (mergeRangesSequentially existingRanges newRanges) := by
  unfold mergeRangesSequentially
  have hsymm : Symmetric (fun a b : ExtendedRange => ¬ sameKeyProp a b) := by
    intro a b h
    exact fun hk => h (sameKeyProp_symm b a hk)
  have hperm := List.perm_insertionSort byStartLE
    (deduplicateRanges
      (List.foldl
        (fun merged newRange =>
          let rangesToProcess := merged.filter (fun ex => overlapsStrictly ex newRange)
          let remaining := merged.filter (fun ex => !(overlapsStrictly ex newRange))
          if rangesToProcess.isEmpty then
            remaining ++ [newRange]
          else
            let res := rangesToProcess.foldl (resolveOne newRange) ([], true)
            remaining ++ res.1 ++ (if res.2 then [newRange] else []))
        existingRanges newRanges))
  refine (hperm.pairwise_iff (fun {x y} h => hsymm h)).mpr ?_
  refine List.Pairwise.imp ?_ (deduplicateRanges_pairwise _)
  intro a b hab hk
  rw [(sameRangeKey_iff a b).mpr hk] at hab
  exact absurd hab (by simp)

end Tabd

namespace Tabd

/-- Counterexample to C8 as stated: two empty intervals that are equal on
every field except aiType are not both kept; the later one is removed by
the dedup step, which does not compare aiType. -/
theorem mergeRangesSequentially_drops_aiType_variant :
    (ExtendedRange.mk ⟨0, 1⟩ ⟨0, 1⟩ ExtendedRangeType.AIGenerated 5 ""
        ⟨"", "", "", "", "", "a"⟩) ≠
      (ExtendedRange.mk ⟨0, 1⟩ ⟨0, 1⟩ ExtendedRangeType.AIGenerated 5 ""
        ⟨"", "", "", "", "", "b"⟩) ∧
    mergeRangesSequentially []
      [ExtendedRange.mk ⟨0, 1⟩ ⟨0, 1⟩ ExtendedRangeType.AIGenerated 5 ""
        ⟨"", "", "", "", "", "a"⟩,
       ExtendedRange.mk ⟨0, 1⟩ ⟨0, 1⟩ ExtendedRangeType.AIGenerated 5 ""
        ⟨"", "", "", "", "", "b"⟩] =
      [ExtendedRange.mk ⟨0, 1⟩ ⟨0, 1⟩ ExtendedRangeType.AIGenerated 5 ""
        ⟨"", "", "", "", "", "a"⟩] := by
  constructor
  · decide
  · decide

theorem posIsBefore_imp_le (a b : Pos) (h : posIsBefore a b = true) :
    posIsBeforeOrEqual a b = true := by
  simp [posIsBefore] at h
  simp [posIsBeforeOrEqual]
  omega

theorem posIsBefore_imp_ne (a b : Pos) (h : posIsBefore a b = true) : a ≠ b := by
  obtain ⟨al, ac⟩ := a
  obtain ⟨bl, bc⟩ := b
  simp [posIsBefore] at h
  simp [Pos.mk.injEq]
  omega

theorem slicePiece_of_isBefore (src : ExtendedRange) (a b : Pos)
    (h : posIsBefore a b = true) :
    slicePiece src a b = [sliceOf src a b] ∧
    (sliceOf src a b).start = a ∧ (sliceOf src a b).endPos = b := by
  have hle := posIsBefore_imp_le a b h
  have hne := posIsBefore_imp_ne a b h
  have hs : sliceOf src a b =
      ⟨a, b, src.rangeType, src.creationTimestamp, src.author, src.options⟩ := by
    simp [sliceOf, mkExtendedRange, hle]
  refine ⟨?_, by simp [hs], by simp [hs]⟩
  simp [slicePiece, hs, posIsEqual, hne]

end Tabd

namespace Tabd

theorem sliceOf_fields (src : ExtendedRange) (a b : Pos) :
    (sliceOf src a b).rangeType = src.rangeType ∧
    (sliceOf src a b).creationTimestamp = src.creationTimestamp ∧
    (sliceOf src a b).author = src.author ∧
    (sliceOf src a b).options = src.options := by
  unfold sliceOf mkExtendedRange
  split <;> exact ⟨rfl, rfl, rfl, rfl⟩

theorem not_sameKeyProp_of_start (a b : ExtendedRange) (h : a.start ≠ b.start) :
    ¬ sameKeyProp a b :=
  fun hk => h hk.1

theorem not_sameKeyProp_of_endPos (a b : ExtendedRange) (h : a.endPos ≠ b.endPos) :
    ¬ sameKeyProp a b :=
  fun hk => h hk.2.1

theorem not_sameKeyProp_of_ts (a b : ExtendedRange)
    (h : a.creationTimestamp ≠ b.creationTimestamp) : ¬ sameKeyProp a b :=
  fun hk => h hk.2.2.2.1

/-- Modelled from the wording of claim C3: the non-empty slices of the
losing existing range outside the winning new range. -/
def newWinsSlices (ex n : ExtendedRange) : List ExtendedRange :=
  (if posIsBefore ex.start n.start then [sliceOf ex ex.start n.start] else []) ++
  (if posIsBefore n.endPos ex.endPos then [sliceOf ex n.endPos ex.endPos] else [])

/-- Modelled from the wording of claim C3: the kept intervals when the
new range is strictly newer: the non-empty slices of ex plus n whole. -/
def keptWhenNewWins (ex n : ExtendedRange) : List ExtendedRange :=
  newWinsSlices ex n ++ [n]

/-- Modelled from the wording of claim C3: the non-empty parts of the new
range outside the winning existing range. -/
def exWinsSlices (ex n : ExtendedRange) : List ExtendedRange :=
  (if posIsBefore n.start ex.start then [sliceOf n n.start ex.start] else []) ++
  (if posIsBefore ex.endPos n.endPos then [sliceOf n ex.endPos n.endPos] else [])

/-- Modelled from the wording of claim C3: the kept intervals when the
existing range wins (tie included): the trimmed parts of n plus ex
as-is, without the full n. -/
def keptWhenExistingWins (ex n : ExtendedRange) : List ExtendedRange :=
  exWinsSlices ex n ++ [ex]

theorem resolveOne_new_wins (ex n : ExtendedRange)
    (hts : n.creationTimestamp > ex.creationTimestamp) :
    resolveOne n ([], true) ex = (newWinsSlices ex n, true) := by
  unfold resolveOne newWinsSlices
  rw [if_pos hts]
  by_cases hcont : (posIsBefore ex.start n.start &&
      posIsBefore n.endPos ex.endPos) = true
  · rw [if_pos hcont]
    rw [Bool.and_eq_true] at hcont
    rw [(slicePiece_of_isBefore ex ex.start n.start hcont.1).1,
        (slicePiece_of_isBefore ex n.endPos ex.endPos hcont.2).1]
    simp [hcont.1, hcont.2]
  · rw [if_neg hcont]
    by_cases h1 : posIsBefore ex.start n.start = true
    · by_cases h2 : posIsBefore n.endPos ex.endPos = true
      · exact absurd (by rw [h1, h2]; rfl) hcont
      · simp [h1, h2, (slicePiece_of_isBefore ex ex.start n.start h1).1]
    · by_cases h2 : posIsBefore n.endPos ex.endPos = true
      · simp [h1, h2, (slicePiece_of_isBefore ex n.endPos ex.endPos h2).1]
      · simp [h1, h2]

theorem resolveOne_ex_wins (ex n : ExtendedRange)
    (hts : ¬ (n.creationTimestamp > ex.creationTimestamp)) :
    resolveOne n ([], true) ex = (keptWhenExistingWins ex n, false) := by
  unfold resolveOne keptWhenExistingWins exWinsSlices
  rw [if_neg hts]
  by_cases hcont : (posIsBefore n.start ex.start &&
      posIsBefore ex.endPos n.endPos) = true
  · rw [if_pos hcont]
    rw [Bool.and_eq_true] at hcont
    rw [(slicePiece_of_isBefore n n.start ex.start hcont.1).1,
        (slicePiece_of_isBefore n ex.endPos n.endPos hcont.2).1]
    simp [hcont.1, hcont.2]
  · rw [if_neg hcont]
    by_cases h1 : posIsBefore n.start ex.start = true
    · by_cases h2 : posIsBefore ex.endPos n.endPos = true
      · exact absurd (by rw [h1, h2]; rfl) hcont
      · simp [h1, h2, (slicePiece_of_isBefore n n.start ex.start h1).1]
    · by_cases h2 : posIsBefore ex.endPos n.endPos = true
      · simp [h1, h2, (slicePiece_of_isBefore n ex.endPos n.endPos h2).1]
      · simp [h1, h2]

theorem mergeRangesSequentially_single_overlap (ex n : ExtendedRange)
    (hov : overlapsStrictly ex n = true) :
    mergeRangesSequentially [ex] [n] =
      sortByStart (deduplicateRanges
        ((resolveOne n ([], true) ex).1 ++
          (if (resolveOne n ([], true) ex).2 then [n] else []))) := by
  unfold mergeRangesSequentially
  simp [List.foldl, List.filter, hov, List.isEmpty]

end Tabd


namespace Tabd

theorem pairwise_append_single (R : ExtendedRange → ExtendedRange → Prop)
    (l : List ExtendedRange) (x : ExtendedRange)
    (hl : List.Pairwise R l) (hx : ∀ a ∈ l, R a x) :
    List.Pairwise R (l ++ [x]) := by
  rw [List.pairwise_append]
  refine ⟨hl, List.pairwise_singleton _ _, ?_⟩
  intro a ha b hb
  simp only [List.mem_singleton] at hb
  subst hb
  exact hx a ha

theorem pairwise_two_guarded (R : ExtendedRange → ExtendedRange → Prop)
    (c1 c2 : Bool) (s1 s2 : ExtendedRange)
    (h12 : c1 = true → c2 = true → R s1 s2) :
    List.Pairwise R ((if c1 = true then [s1] else []) ++
      (if c2 = true then [s2] else [])) := by
  rcases c1 with _ | _ <;> rcases c2 with _ | _ <;>
    simp_all [List.pairwise_cons]

theorem mem_two_guarded (P : ExtendedRange → Prop)
    (c1 c2 : Bool) (s1 s2 : ExtendedRange)
    (h1 : c1 = true → P s1) (h2 : c2 = true → P s2) :
    ∀ a ∈ ((if c1 = true then [s1] else []) ++
      (if c2 = true then [s2] else [])), P a := by
  rcases c1 with _ | _ <;> rcases c2 with _ | _ <;> simp_all

theorem keptWhenNewWins_pairwise (ex n : ExtendedRange)
    (hov : overlapsStrictly ex n = true)
    (hts : n.creationTimestamp > ex.creationTimestamp) :
    List.Pairwise (fun a b => sameRangeKey a b = false) (keptWhenNewWins ex n) := by
  rw [overlapsStrictly, Bool.and_eq_true] at hov
  obtain ⟨hov1, hov2⟩ := hov
  have hkey1 : ∀ a b : Pos, sameRangeKey (sliceOf ex a b) n = false := by
    intro a b
    refine sameRangeKey_eq_false_of _ _ (not_sameKeyProp_of_ts _ _ ?_)
    rw [(sliceOf_fields ex a b).2.1]
    omega
  unfold keptWhenNewWins newWinsSlices
  refine pairwise_append_single _ _ _ ?_ ?_
  · refine pairwise_two_guarded _ _ _ _ _ ?_
    intro g1 g2
    refine sameRangeKey_eq_false_of _ _ (not_sameKeyProp_of_start _ _ ?_)
    rw [(slicePiece_of_isBefore ex ex.start n.start g1).2.1,
        (slicePiece_of_isBefore ex n.endPos ex.endPos g2).2.1]
    exact posIsBefore_imp_ne _ _ hov1
  · exact mem_two_guarded _ _ _ _ _ (fun _ => hkey1 _ _) (fun _ => hkey1 _ _)

theorem keptWhenExistingWins_pairwise (ex n : ExtendedRange)
    (hov : overlapsStrictly ex n = true) :
    List.Pairwise (fun a b => sameRangeKey a b = false)
      (keptWhenExistingWins ex n) := by
  rw [overlapsStrictly, Bool.and_eq_true] at hov
  obtain ⟨hov1, hov2⟩ := hov
  unfold keptWhenExistingWins exWinsSlices
  refine pairwise_append_single _ _ _ ?_ ?_
  · refine pairwise_two_guarded _ _ _ _ _ ?_
    intro g1 g2
    refine sameRangeKey_eq_false_of _ _ (not_sameKeyProp_of_start _ _ ?_)
    rw [(slicePiece_of_isBefore n n.start ex.start g1).2.1,
        (slicePiece_of_isBefore n ex.endPos n.endPos g2).2.1]
    exact posIsBefore_imp_ne _ _ hov2
  · refine mem_two_guarded _ _ _ _ _ ?_ ?_
    · intro g1
      refine sameRangeKey_eq_false_of _ _ (not_sameKeyProp_of_start _ _ ?_)
      rw [(slicePiece_of_isBefore n n.start ex.start g1).2.1]
      exact posIsBefore_imp_ne _ _ g1
    · intro g2
      refine sameRangeKey_eq_false_of _ _ (not_sameKeyProp_of_endPos _ _ ?_)
      rw [(slicePiece_of_isBefore n ex.endPos n.endPos g2).2.2]
      exact fun hc => (posIsBefore_imp_ne _ _ g2) hc.symm

end Tabd

namespace Tabd

/-- C3: mergeSequentially resolves a strict overlap by timestamp
precedence.  When the new interval is strictly newer it is added whole
and only the non-empty slices of the existing interval outside it are
kept; on a tie or when the existing interval is newer, the existing
interval stays as-is, the new interval is trimmed to its non-empty parts
outside it, and the full new interval is not added.  Non-overlapping new
intervals are added unchanged, and the final result is always sorted by
(start.line, start.column). -/
theorem mergeRangesSequentially_timestamp_precedence (ex n : ExtendedRange)
    (hov : overlapsStrictly ex n = true) :
    (n.creationTimestamp > ex.creationTimestamp →
      mergeRangesSequentially [ex] [n] = sortByStart (keptWhenNewWins ex n)) ∧
    (ex.creationTimestamp ≥ n.creationTimestamp →
      mergeRangesSequentially [ex] [n] = sortByStart (keptWhenExistingWins ex n)) ∧
    (∀ existingRanges newRanges : List ExtendedRange,
      List.Sorted byStartLE (mergeRangesSequentially existingRanges newRanges)) ∧
    (∀ (existingRanges : List ExtendedRange) (m : ExtendedRange),
      (∀ ex2 ∈ existingRanges, overlapsStrictly ex2 m = false) →
      mergeRangesSequentially existingRanges [m] =
        sortByStart (deduplicateRanges (existingRanges ++ [m]))) := by
  refine ⟨?_, ?_, ?_, ?_⟩
  · intro hts
    rw [mergeRangesSequentially_single_overlap ex n hov,
        resolveOne_new_wins ex n hts]
    simp only [if_true]
    rw [show newWinsSlices ex n ++ [n] = keptWhenNewWins ex n from rfl,
        deduplicateRanges_eq_self _ (keptWhenNewWins_pairwise ex n
          (by rw [overlapsStrictly]; rw [overlapsStrictly] at hov; exact hov) hts)]
  · intro hts
    have hts2 : ¬ (n.creationTimestamp > ex.creationTimestamp) := by omega
    rw [mergeRangesSequentially_single_overlap ex n hov,
        resolveOne_ex_wins ex n hts2]
    simp only [Bool.false_eq_true, if_false, List.append_nil]
    rw [deduplicateRanges_eq_self _ (keptWhenExistingWins_pairwise ex n hov)]
  · intro existingRanges newRanges
    exact List.sorted_insertionSort byStartLE _
  · intro existingRanges m hno
    unfold mergeRangesSequentially
    have hfilter1 : existingRanges.filter (fun ex2 => overlapsStrictly ex2 m) = [] := by
      rw [List.filter_eq_nil_iff]
      intro a ha
      simp [hno a ha]
    have hfilter2 :
        existingRanges.filter (fun ex2 => !(overlapsStrictly ex2 m)) = existingRanges := by
      rw [List.filter_eq_self]
      intro a ha
      simp [hno a ha]
    simp [List.foldl, hfilter1, hfilter2]

/-- Witness for C3 at concrete inputs (spec scenario S5): existing
UserEdit covering columns 0 to 10 at time 1000 and a newer AIGenerated
interval over columns 5 to 15 at time 2000. -/
theorem mergeRangesSequentially_timestamp_precedence_witness :
    overlapsStrictly
      (ExtendedRange.mk ⟨0, 0⟩ ⟨0, 10⟩ ExtendedRangeType.UserEdit 1000 "" ⟨"", "", "", "", "", ""⟩)
      (ExtendedRange.mk ⟨0, 5⟩ ⟨0, 15⟩ ExtendedRangeType.AIGenerated 2000 "" ⟨"", "", "", "", "", ""⟩)
      = true ∧
    mergeRangesSequentially
      [ExtendedRange.mk ⟨0, 0⟩ ⟨0, 10⟩ ExtendedRangeType.UserEdit 1000 "" ⟨"", "", "", "", "", ""⟩]
      [ExtendedRange.mk ⟨0, 5⟩ ⟨0, 15⟩ ExtendedRangeType.AIGenerated 2000 "" ⟨"", "", "", "", "", ""⟩]
      = sortByStart (keptWhenNewWins
        (ExtendedRange.mk ⟨0, 0⟩ ⟨0, 10⟩ ExtendedRangeType.UserEdit 1000 "" ⟨"", "", "", "", "", ""⟩)
        (ExtendedRange.mk ⟨0, 5⟩ ⟨0, 15⟩ ExtendedRangeType.AIGenerated 2000 "" ⟨"", "", "", "", "", ""⟩)) :=
  ⟨by decide,
    (mergeRangesSequentially_timestamp_precedence _ _ (by decide)).1 (by decide)⟩

end Tabd


namespace Tabd

/-- Timestamp order on ranges. -/
def tsLE (a b : ExtendedRange) : Prop :=
  a.creationTimestamp ≤ b.creationTimestamp

instance : DecidableRel tsLE := fun a b =>
  inferInstanceAs (Decidable (a.creationTimestamp ≤ b.creationTimestamp))

instance : IsTrans ExtendedRange tsLE := by
  constructor; intro a b c; unfold tsLE; omega

theorem posIsBeforeOrEqual_trans (a b c : Pos)
    (h1 : posIsBeforeOrEqual a b = true) (h2 : posIsBeforeOrEqual b c = true) :
    posIsBeforeOrEqual a c = true := by
  simp [posIsBeforeOrEqual] at *
  omega

theorem groupLast_nil (first : ExtendedRange) : groupLast first [] = first := by
  simp [groupLast]

theorem groupLast_cons (first r : ExtendedRange) (rest : List ExtendedRange) :
    groupLast first (r :: rest) = groupLast r rest := by
  rcases rest with _ | ⟨x, xs⟩
  · simp [groupLast]
  · rcases h : (x :: xs).getLast? with _ | y
    · exact absurd (List.getLast?_eq_none_iff.mp h) (by simp)
    · simp [groupLast, List.getLast?_cons_cons, h]

theorem groupLast_mem (first : ExtendedRange) (rest : List ExtendedRange) :
    groupLast first rest ∈ first :: rest := by
  induction rest generalizing first with
  | nil => simp [groupLast_nil]
  | cons r rest ih =>
      rw [groupLast_cons]
      have := ih r
      simp only [List.mem_cons] at this ⊢
      tauto

theorem groupLast_snoc (first cur : ExtendedRange) (rest : List ExtendedRange) :
    groupLast first (rest ++ [cur]) = cur := by
  simp [groupLast]

theorem foldl_min_eq (l : List ExtendedRange) (a : Int)
    (h : ∀ x ∈ l, a ≤ x.creationTimestamp) :
    l.foldl (fun m r => min m r.creationTimestamp) a = a := by
  induction l generalizing a with
  | nil => rfl
  | cons x xs ih =>
      simp only [List.foldl_cons]
      rw [min_eq_left (h x (by simp))]
      exact ih a (fun y hy => h y (by simp [hy]))

theorem groupMinTs_eq_first (first : ExtendedRange) (rest : List ExtendedRange)
    (h : ∀ x ∈ rest, first.creationTimestamp ≤ x.creationTimestamp) :
    groupMinTs first rest = first.creationTimestamp :=
  foldl_min_eq rest first.creationTimestamp h

theorem group_span_wf (rest : List ExtendedRange) :
    ∀ first : ExtendedRange,
    List.Chain' (fun a b => joinsGroup a b = true) (first :: rest) →
    (∀ r ∈ first :: rest, posIsBeforeOrEqual r.start r.endPos = true) →
    posIsBeforeOrEqual first.start (groupLast first rest).endPos = true := by
  induction rest with
  | nil =>
      intro first _ hw
      rw [groupLast_nil]
      exact hw first (by simp)
  | cons r rest ih =>
      intro first hj hw
      rw [groupLast_cons]
      rw [List.chain'_cons] at hj
      have hjoin : joinsGroup first r = true := hj.1
      rw [joinsGroup, Bool.and_eq_true] at hjoin
      have hadj : first.endPos = r.start := by
        have := hjoin.1
        simpa [posIsEqual] using this
      have htail := ih r hj.2 (fun x hx => hw x (by simp [List.mem_cons] at hx ⊢; tauto))
      refine posIsBeforeOrEqual_trans _ _ _ (hw first (by simp)) ?_
      rw [hadj]
      exact htail

end Tabd

namespace Tabd

theorem getLast?_eq_groupLast (first : ExtendedRange) (rest : List ExtendedRange) :
    (first :: rest).getLast? = some (groupLast first rest) := by
  rcases rest with _ | ⟨x, xs⟩
  · simp [groupLast]
  · rcases h : (x :: xs).getLast? with _ | y
    · exact absurd (List.getLast?_eq_none_iff.mp h) (by simp)
    · rw [List.getLast?_cons_cons, h]
      simp [groupLast, h]

theorem walkGroups_nil (first : ExtendedRange) (rest : List ExtendedRange) :
    walkGroups first rest [] = emitGroup first rest := rfl

theorem walkGroups_cons (first cur : ExtendedRange) (rest more : List ExtendedRange) :
    walkGroups first rest (cur :: more) =
      if joinsGroup (groupLast first rest) cur then
        walkGroups first (rest ++ [cur]) more
      else
        emitGroup first rest ++ walkGroups cur [] more := rfl

theorem walk_of_no_join (l : List ExtendedRange) :
    ∀ h0 : ExtendedRange,
    List.Chain' (fun a b => joinsGroup a b = false) (h0 :: l) →
    walkGroups h0 [] l = h0 :: l := by
  induction l with
  | nil =>
      intro h0 _
      rw [walkGroups_nil]
      simp [emitGroup]
  | cons cur more ih =>
      intro h0 hch
      rw [List.chain'_cons] at hch
      rw [walkGroups_cons, groupLast_nil, if_neg (by simp [hch.1]),
          ih cur hch.2]
      simp [emitGroup]

theorem emitGroup_spec (first : ExtendedRange) (rest : List ExtendedRange)
    (hj : List.Chain' (fun a b => joinsGroup a b = true) (first :: rest))
    (hw : ∀ r ∈ first :: rest, posIsBeforeOrEqual r.start r.endPos = true)
    (ht : ∀ x ∈ rest, first.creationTimestamp ≤ x.creationTimestamp)
    (hue : isUserEdit first = true) :
    ∃ c, emitGroup first rest = [c] ∧ c.start = first.start ∧
      c.endPos = (groupLast first rest).endPos ∧
      c.creationTimestamp = first.creationTimestamp ∧
      isUserEdit c = true := by
  rcases rest with _ | ⟨r, rs⟩
  · refine ⟨first, by simp [emitGroup], rfl, by rw [groupLast_nil], rfl, hue⟩
  · have hspan := group_span_wf (r :: rs) first hj hw
    refine ⟨⟨first.start, (groupLast first (r :: rs)).endPos,
      ExtendedRangeType.UserEdit, groupMinTs first (r :: rs),
      first.author, first.options⟩, ?_, rfl, rfl, ?_, rfl⟩
    · simp only [emitGroup, List.isEmpty_cons, if_false, Bool.false_eq_true,
        mkExtendedRange]
      rw [if_pos hspan]
    · exact groupMinTs_eq_first first (r :: rs) ht

theorem byStartLE_of_starts (a b a2 b2 : ExtendedRange)
    (ha : a.start = a2.start) (hb : b.start = b2.start)
    (h : byStartLE a2 b2) : byStartLE a b := by
  unfold byStartLE at *
  rw [ha, hb]
  exact h

end Tabd


namespace Tabd

theorem walk_invariant (l : List ExtendedRange) :
    ∀ (first : ExtendedRange) (rest : List ExtendedRange),
    (∀ r ∈ first :: (rest ++ l), posIsBeforeOrEqual r.start r.endPos = true) →
    List.Pairwise byStartLE (first :: (rest ++ l)) →
    List.Pairwise tsLE (first :: (rest ++ l)) →
    List.Chain' (fun a b => joinsGroup a b = true) (first :: rest) →
    (∀ r ∈ first :: (rest ++ l), isUserEdit r = true) →
    ∃ hd tl,
      walkGroups first rest l = hd :: tl ∧
      hd.start = first.start ∧
      hd.creationTimestamp = first.creationTimestamp ∧
      List.Chain' (fun a b => joinsGroup a b = false) (hd :: tl) ∧
      List.Pairwise byStartLE (hd :: tl) ∧
      (∀ r ∈ hd :: tl, isUserEdit r = true) := by
  induction l with
  | nil =>
      intro first rest hw hpb hpt hj hue
      simp only [List.append_nil] at hw hpb hpt hue
      obtain ⟨c, hc, hcs, hce, hct, hcue⟩ := emitGroup_spec first rest hj hw
        (fun x hx => (List.pairwise_cons.mp hpt).1 x hx) (hue first (by simp))
      rw [walkGroups_nil, hc]
      refine ⟨c, [], rfl, hcs, hct, List.chain'_singleton c,
        List.pairwise_singleton _ _, ?_⟩
      intro r hr
      simp only [List.mem_singleton] at hr
      subst hr
      exact hcue
  | cons cur more ih =>
      intro first rest hw hpb hpt hj hue
      rw [walkGroups_cons]
      by_cases hjoin : joinsGroup (groupLast first rest) cur = true
      · rw [if_pos hjoin]
        have hassoc : first :: ((rest ++ [cur]) ++ more) =
            first :: (rest ++ cur :: more) := by simp
        have hj2 : List.Chain' (fun a b => joinsGroup a b = true)
            (first :: (rest ++ [cur])) := by
          rw [show first :: (rest ++ [cur]) = (first :: rest) ++ [cur] from by simp]
          refine List.chain'_append.mpr ⟨hj, List.chain'_singleton cur, ?_⟩
          intro x hx y hy
          rw [getLast?_eq_groupLast] at hx
          simp only [Option.mem_def, Option.some.injEq] at hx
          simp only [List.head?_cons, Option.mem_def, Option.some.injEq] at hy
          subst hx
          subst hy
          exact hjoin
        exact ih first (rest ++ [cur]) (hassoc ▸ hw) (hassoc ▸ hpb)
          (hassoc ▸ hpt) hj2 (hassoc ▸ hue)
      · rw [if_neg hjoin]
        have hjoinf : joinsGroup (groupLast first rest) cur = false := by
          simpa using hjoin
        have hsub : List.Sublist (cur :: more) (first :: (rest ++ cur :: more)) :=
          List.Sublist.cons first (List.sublist_append_right rest (cur :: more))
        have hw2 : ∀ r ∈ cur :: ([] ++ more),
            posIsBeforeOrEqual r.start r.endPos = true := by
          intro r hr
          exact hw r (hsub.subset (by simpa using hr))
        have hpb2 : List.Pairwise byStartLE (cur :: ([] ++ more)) := by
          simpa using (hpb.sublist hsub)
        have hpt2 : List.Pairwise tsLE (cur :: ([] ++ more)) := by
          simpa using (hpt.sublist hsub)
        have hue2 : ∀ r ∈ cur :: ([] ++ more), isUserEdit r = true := by
          intro r hr
          exact hue r (hsub.subset (by simpa using hr))
        obtain ⟨hd2, tl2, hwalk2, hd2s, hd2t, hch2, hpb2out, hue2out⟩ :=
          ih cur [] hw2 hpb2 hpt2 (List.chain'_singleton cur) hue2
        have hmemleft : ∀ r ∈ first :: rest, r ∈ first :: (rest ++ cur :: more) := by
          intro r hr
          rcases List.mem_cons.mp hr with hr | hr
          · simp [hr]
          · simp [List.mem_cons, List.mem_append, hr]
        obtain ⟨c, hc, hcs, hce, hct, hcue⟩ := emitGroup_spec first rest hj
          (fun r hr => hw r (hmemleft r hr))
          (fun x hx => (List.pairwise_cons.mp hpt).1 x (by
            simp [List.mem_append, hx]))
          (hue first (by simp))
        rw [hc, hwalk2]
        refine ⟨c, hd2 :: tl2, rfl, hcs, hct, ?_, ?_, ?_⟩
        · -- the collapsed previous group never re-joins the next group head
          rw [List.chain'_cons]
          refine ⟨?_, hch2⟩
          have hfirst_le_gl :
              first.creationTimestamp ≤ (groupLast first rest).creationTimestamp := by
            rcases List.mem_cons.mp (groupLast_mem first rest) with h | h
            · rw [h]
            · exact (List.pairwise_cons.mp hpt).1 _ (by simp [List.mem_append, h])
          have hgl_le_cur :
              (groupLast first rest).creationTimestamp ≤ cur.creationTimestamp := by
            rcases List.mem_cons.mp (groupLast_mem first rest) with h | h
            · rw [h]
              exact (List.pairwise_cons.mp hpt).1 cur (by simp)
            · have hcross := (List.pairwise_append.mp
                (List.pairwise_cons.mp hpt).2).2.2
              exact hcross _ h cur (by simp)
          by_cases hadj : posIsEqual (groupLast first rest).endPos cur.start = true
          · have hfar : ¬ ((cur.creationTimestamp -
                (groupLast first rest).creationTimestamp).natAbs < 60000) := by
              intro hlt
              rw [joinsGroup, hadj] at hjoinf
              simp [hlt] at hjoinf
            rw [joinsGroup]
            have hfar2 : ((hd2.creationTimestamp - c.creationTimestamp).natAbs
                < 60000) = False := by
              rw [hd2t, hct]
              simp only [eq_iff_iff, iff_false]
              omega
            simp [hfar2]
          · rw [joinsGroup]
            have : posIsEqual c.endPos hd2.start = false := by
              rw [hce, hd2s]
              simpa using hadj
            simp [this]
        · refine List.pairwise_cons.mpr ⟨?_, hpb2out⟩
          have hcb : byStartLE c hd2 :=
            byStartLE_of_starts c hd2 first cur hcs hd2s
              ((List.pairwise_cons.mp hpb).1 cur (by simp))
          intro b hb
          rcases List.mem_cons.mp hb with hb | hb
          · rw [hb]
            exact hcb
          · exact IsTrans.trans c hd2 b hcb ((List.pairwise_cons.mp hpb2out).1 b hb)
        · intro r hr
          rcases List.mem_cons.mp hr with hr | hr
          · rw [hr]
            exact hcue
          · exact hue2out r hr

end Tabd

namespace Tabd

theorem mergeUserEdits_short (s : List ExtendedRange)
    (h : (sortByStart (s.filter isUserEdit)).length ≤ 1) :
    mergeUserEdits s = s := by
  unfold mergeUserEdits
  rw [if_pos h]

theorem mergeUserEdits_eq_walk (s : List ExtendedRange) (h : ExtendedRange)
    (t : List ExtendedRange) (hu : sortByStart (s.filter isUserEdit) = h :: t)
    (hlen : ¬ ((h :: t : List ExtendedRange).length ≤ 1)) :
    mergeUserEdits s =
      walkGroups h [] t ++ s.filter (fun r => !(isUserEdit r)) := by
  unfold mergeUserEdits
  rw [hu, if_neg hlen]

theorem sortByStart_mem (l : List ExtendedRange) (r : ExtendedRange) :
    r ∈ sortByStart l ↔ r ∈ l :=
  (List.perm_insertionSort byStartLE l).mem_iff

theorem filter_userEdit_of_all (l : List ExtendedRange)
    (h : ∀ r ∈ l, isUserEdit r = true) : l.filter isUserEdit = l :=
  List.filter_eq_self.mpr h

theorem filter_not_userEdit_of_all (l : List ExtendedRange)
    (h : ∀ r ∈ l, isUserEdit r = true) :
    l.filter (fun r => !(isUserEdit r)) = [] := by
  rw [List.filter_eq_nil_iff]
  intro a ha
  simp [h a ha]

/-- C7 (amended): the Edit Coalescer is idempotent on every store whose
intervals are well formed and whose UserEdit intervals, in position
order, carry non-decreasing timestamps; without the timestamp condition
a collapsed group can take the minimum timestamp of its members and
become mergeable with its neighbour on the second pass. -/
theorem mergeUserEdits_idempotent_of_monotone (s : List ExtendedRange)
    (hwf : ∀ r ∈ s, posIsBeforeOrEqual r.start r.endPos = true)
    (hmono : List.Chain' tsLE (sortByStart (s.filter isUserEdit))) :
    mergeUserEdits (mergeUserEdits s) = mergeUserEdits s := by
  by_cases hlen : (sortByStart (s.filter isUserEdit)).length ≤ 1
  · rw [mergeUserEdits_short s hlen]
    exact mergeUserEdits_short s hlen
  · obtain ⟨h, t, hut⟩ : ∃ h t, sortByStart (s.filter isUserEdit) = h :: t := by
      rcases he : sortByStart (s.filter isUserEdit) with _ | ⟨h, t⟩
      · rw [he] at hlen
        simp at hlen
      · exact ⟨h, t, rfl⟩
    have hlen2 : ¬ ((h :: t : List ExtendedRange).length ≤ 1) := by
      rw [hut] at hlen
      exact hlen
    have husorted : List.Pairwise byStartLE (h :: t) := by
      have := List.sorted_insertionSort byStartLE (s.filter isUserEdit)
      rw [show List.insertionSort byStartLE (s.filter isUserEdit) =
        sortByStart (s.filter isUserEdit) from rfl, hut] at this
      exact this
    have huue : ∀ r ∈ (h :: t : List ExtendedRange), isUserEdit r = true := by
      intro r hr
      rw [← hut, sortByStart_mem] at hr
      exact List.of_mem_filter hr
    have huwf : ∀ r ∈ (h :: t : List ExtendedRange),
        posIsBeforeOrEqual r.start r.endPos = true := by
      intro r hr
      rw [← hut, sortByStart_mem] at hr
      exact hwf r (List.mem_of_mem_filter hr)
    have hupt : List.Pairwise tsLE (h :: t) := by
      rw [hut] at hmono
      exact List.chain'_iff_pairwise.mp hmono
    obtain ⟨hd, tl, hwalk, hds, hdt, hnojoin, hpbout, hueout⟩ :=
      walk_invariant t h [] (by simpa using huwf) (by simpa using husorted)
        (by simpa using hupt) (List.chain'_singleton h) (by simpa using huue)
    have hout := mergeUserEdits_eq_walk s h t hut hlen2
    rw [hout]
    -- the second pass sees exactly the walked user edits, already sorted
    have hfilter2 :
        (walkGroups h [] t ++ s.filter (fun r => !(isUserEdit r))).filter
          isUserEdit = walkGroups h [] t := by
      rw [List.filter_append, filter_userEdit_of_all _ (by rw [hwalk]; exact hueout)]
      have : (s.filter (fun r => !(isUserEdit r))).filter isUserEdit = [] := by
        rw [List.filter_eq_nil_iff]
        intro a ha
        have := List.of_mem_filter ha
        simp only [Bool.not_eq_true'] at this
        simp [this]
      rw [this, List.append_nil]
    have hsorted2 : sortByStart (walkGroups h [] t) = walkGroups h [] t := by
      apply List.Sorted.insertionSort_eq
      rw [hwalk]
      exact hpbout
    by_cases hlen3 : (walkGroups h [] t).length ≤ 1
    · exact mergeUserEdits_short _ (by rw [hfilter2, hsorted2]; exact hlen3)
    · have hu2 : sortByStart
          ((walkGroups h [] t ++ s.filter (fun r => !(isUserEdit r))).filter
            isUserEdit) = hd :: tl := by
        rw [hfilter2, hsorted2, hwalk]
      have hlen4 : ¬ ((hd :: tl : List ExtendedRange).length ≤ 1) := by
        rw [hwalk] at hlen3
        exact hlen3
      rw [mergeUserEdits_eq_walk _ hd tl hu2 hlen4]
      rw [walk_of_no_join tl hd hnojoin]
      have hfilter3 :
          (walkGroups h [] t ++ s.filter (fun r => !(isUserEdit r))).filter
            (fun r => !(isUserEdit r)) = s.filter (fun r => !(isUserEdit r)) := by
        rw [List.filter_append, filter_not_userEdit_of_all _ (by
          rw [hwalk]; exact hueout)]
        rw [List.filter_filter]
        simp
      rw [hfilter3, ← hwalk]

end Tabd

namespace Tabd

/-- Counterexample to C7 as stated: three touching UserEdit intervals
with timestamps 50000, 100000, 40000.  The first pass groups the first
two (difference 50000 ms) and stamps the collapsed interval with the
minimum 50000, while the third breaks away (difference 60000 ms); the
second pass then finds the collapsed interval and the third adjacent
with difference 10000 ms and merges them, so coalesce of coalesce
differs from coalesce. -/
theorem mergeUserEdits_not_idempotent :
    mergeUserEdits (mergeUserEdits
      [ExtendedRange.mk ⟨0, 0⟩ ⟨0, 1⟩ ExtendedRangeType.UserEdit 50000 "" ⟨"", "", "", "", "", ""⟩,
       ExtendedRange.mk ⟨0, 1⟩ ⟨0, 2⟩ ExtendedRangeType.UserEdit 100000 "" ⟨"", "", "", "", "", ""⟩,
       ExtendedRange.mk ⟨0, 2⟩ ⟨0, 3⟩ ExtendedRangeType.UserEdit 40000 "" ⟨"", "", "", "", "", ""⟩]) ≠
    mergeUserEdits
      [ExtendedRange.mk ⟨0, 0⟩ ⟨0, 1⟩ ExtendedRangeType.UserEdit 50000 "" ⟨"", "", "", "", "", ""⟩,
       ExtendedRange.mk ⟨0, 1⟩ ⟨0, 2⟩ ExtendedRangeType.UserEdit 100000 "" ⟨"", "", "", "", "", ""⟩,
       ExtendedRange.mk ⟨0, 2⟩ ⟨0, 3⟩ ExtendedRangeType.UserEdit 40000 "" ⟨"", "", "", "", "", ""⟩] := by
  decide

/-- Witness for the amended C7 at a concrete store (spec scenario S6):
three touching UserEdits with non-decreasing timestamps 0, 30000, 45000. -/
theorem mergeUserEdits_idempotent_witness :
    (∀ r ∈ [ExtendedRange.mk ⟨0, 0⟩ ⟨0, 1⟩ ExtendedRangeType.UserEdit 0 "" ⟨"", "", "", "", "", ""⟩,
            ExtendedRange.mk ⟨0, 1⟩ ⟨0, 2⟩ ExtendedRangeType.UserEdit 30000 "" ⟨"", "", "", "", "", ""⟩,
            ExtendedRange.mk ⟨0, 2⟩ ⟨0, 3⟩ ExtendedRangeType.UserEdit 45000 "" ⟨"", "", "", "", "", ""⟩],
        posIsBeforeOrEqual r.start r.endPos = true) ∧
    mergeUserEdits (mergeUserEdits
      [ExtendedRange.mk ⟨0, 0⟩ ⟨0, 1⟩ ExtendedRangeType.UserEdit 0 "" ⟨"", "", "", "", "", ""⟩,
       ExtendedRange.mk ⟨0, 1⟩ ⟨0, 2⟩ ExtendedRangeType.UserEdit 30000 "" ⟨"", "", "", "", "", ""⟩,
       ExtendedRange.mk ⟨0, 2⟩ ⟨0, 3⟩ ExtendedRangeType.UserEdit 45000 "" ⟨"", "", "", "", "", ""⟩]) =
    mergeUserEdits
      [ExtendedRange.mk ⟨0, 0⟩ ⟨0, 1⟩ ExtendedRangeType.UserEdit 0 "" ⟨"", "", "", "", "", ""⟩,
       ExtendedRange.mk ⟨0, 1⟩ ⟨0, 2⟩ ExtendedRangeType.UserEdit 30000 "" ⟨"", "", "", "", "", ""⟩,
       ExtendedRange.mk ⟨0, 2⟩ ⟨0, 3⟩ ExtendedRangeType.UserEdit 45000 "" ⟨"", "", "", "", "", ""⟩] :=
  ⟨by decide,
    mergeUserEdits_idempotent_of_monotone _ (by decide) (by
      rw [show sortByStart (List.filter isUserEdit
        [ExtendedRange.mk ⟨0, 0⟩ ⟨0, 1⟩ ExtendedRangeType.UserEdit 0 "" ⟨"", "", "", "", "", ""⟩,
         ExtendedRange.mk ⟨0, 1⟩ ⟨0, 2⟩ ExtendedRangeType.UserEdit 30000 "" ⟨"", "", "", "", "", ""⟩,
         ExtendedRange.mk ⟨0, 2⟩ ⟨0, 3⟩ ExtendedRangeType.UserEdit 45000 "" ⟨"", "", "", "", "", ""⟩]) =
        [ExtendedRange.mk ⟨0, 0⟩ ⟨0, 1⟩ ExtendedRangeType.UserEdit 0 "" ⟨"", "", "", "", "", ""⟩,
         ExtendedRange.mk ⟨0, 1⟩ ⟨0, 2⟩ ExtendedRangeType.UserEdit 30000 "" ⟨"", "", "", "", "", ""⟩,
         ExtendedRange.mk ⟨0, 2⟩ ⟨0, 3⟩ ExtendedRangeType.UserEdit 45000 "" ⟨"", "", "", "", "", ""⟩] from by decide]
      exact List.chain'_cons.mpr ⟨by decide, List.chain'_cons.mpr
        ⟨by decide, List.chain'_singleton _⟩⟩)⟩

end Tabd

namespace Tabd

/-- JS whitespace for String.prototype.trim (the characters relevant to
the texts the engine handles). -/
def isJsSpace (c : Char) : Bool :=
  c == ' ' || c == '\t' || c == '\n' || c == '\r'

/-- JS String.prototype.trim. -/
def jsTrim (t : List Char) : List Char :=
  ((t.dropWhile isJsSpace).reverse.dropWhile isJsSpace).reverse

/-- Whether the pattern is a prefix of the haystack. -/
def startsWithList : List Char → List Char → Bool
  | _, [] => true
  | [], _ :: _ => false
  | a :: as, b :: bs => a == b && startsWithList as bs

/-- JS String.prototype.includes: substring containment. -/
def containsList (hay pat : List Char) : Bool :=
  if startsWithList hay pat then true
  else
    match hay with
    | [] => false
    | _ :: t => containsList t pat

/-- The result of checkRecentPaste, an oracle over the external clipboard
state (browser-extension helper plus the in-process latestClipboardData,
its one-hour freshness window and its text match are all resolved on the
other side of this interface, per spec section 6). -/
structure ClipboardHit where
  isIDE : Bool
  url : String
  title : String
  workspacePath : String
  relativePath : String

/-- The observable fields of mostRecentInternalCommand.value used by
getUpdatedRanges.  engineName stands for the flattened lookup
command.arguments[0].telemetry.properties.engineName, empty when any
link of that chain is absent. -/
structure AiInfo where
  ty : String
  timestamp : Int
  insertText : Option (List Char)
  oldText : Option (List Char)
  aiRange : Option (Pos × Pos)
  extensionName : String
  modelId : String
  explanation : String
  engineName : String

/-- Environment of one getUpdatedRanges call: the clock, the document
offset oracle, the AI hint singleton, and the external clipboard and VCS
lookups (resolveIDEPaste shells out to git; only its returned url and
title are observable). -/
structure UpdateEnv where
  now : Int
  offsetAt : Pos → Int
  positionAt : Int → Pos
  aiInfo : AiInfo
  checkRecentPaste : List Char → Option ClipboardHit
  resolveIDEPaste : String → String → String × String

/-- The reason argument: vscode undo and redo, the three extended kinds
the coordinator may pass, or none (undefined). -/
inductive UpdateReason where
  | undo
  | redo
  | paste
  | idePaste
  | aiGenerated
  | none
deriving DecidableEq, Repr

/-- positionAt(offsetAt(start) + text.length): the end of the freshly
inserted span. -/
def endFromText (env : UpdateEnv) (start : Pos) (text : List Char) : Pos :=
  env.positionAt (env.offsetAt start + (text.length : Int))

/-- positionalTracking.ts typeMap. -/
def typeMapLookup (t : String) : String :=
  if t = "onBeforeApplyPatchTool" then "applyPatch"
  else if t = "onBeforeCreateFileTool" then "createFile"
  else if t = "onBeforeInsertEditTool" then "insertEdit"
  else if t = "onBeforeReplaceStringTool" then "replaceString"
  else if t = "onAfterApplyPatchTool" then "applyPatch"
  else if t = "onAfterCreateFileTool" then "createFile"
  else if t = "onAfterInsertEditTool" then "insertEdit"
  else if t = "onAfterReplaceStringTool" then "replaceString"
  else if t = "inlineCompletion" then "inlineCompletion"
  else if t = "onBeforeApplyEdit" then "applyEdit"
  else if t = "onAfterApplyEdit" then "applyEdit"
  else ""

/-- aiInfo._type ? (typeMap[aiInfo._type] || aiInfo._type) : ''. -/
def aiTypeOf (ty : String) : String :=
  if ty = "" then ""
  else if typeMapLookup ty = "" then ty
  else typeMapLookup ty

/-- The AI options record shared by the AIGenerated emissions. -/
def aiOptionsOf (info : AiInfo) : ExtendedRangeOptions :=
  { pasteUrl := ""
    pasteTitle := ""
    aiName := if info.extensionName = "" then "unknown" else info.extensionName
    aiModel := if info.modelId = "" then info.engineName else info.modelId
    aiExplanation := info.explanation
    aiType := aiTypeOf info.ty }

/-- The _type values excluded from the typed-character UserEdit branch. -/
def userEditExcludedTypes : List String :=
  ["onBeforeInsertEditTool", "onBeforeApplyPatchTool", "onBeforeCreateFileTool",
   "onBeforeReplaceStringTool", "onAfterReplaceStringTool",
   "onAfterApplyPatchTool", "onBeforeApplyEdit", "onAfterApplyEdit"]

/-- The AI-matching test of the fall-through branch: insertText is set
and non-empty, its trim contains the trimmed change text, the hint is
within 2 s (or 5 min for inlineCompletion), and when aiInfo.range is set
the change starts at its first position. -/
def aiMatches (env : UpdateEnv) (change : Change) : Bool :=
  match env.aiInfo.insertText with
  | Option.none => false
  | Option.some it =>
      !(it.isEmpty) &&
      containsList (jsTrim it) (jsTrim change.text) &&
      (decide (env.aiInfo.timestamp > env.now - 2000) ||
        (env.aiInfo.ty == "inlineCompletion" &&
          decide (env.aiInfo.timestamp > env.now - 300000))) &&
      (match env.aiInfo.aiRange with
       | Option.none => true
       | Option.some (r0, _) =>
           change.range.start.line == r0.line &&
           change.range.start.character == r0.character)

end Tabd

namespace Tabd

/-- Mutable state of one getUpdatedRanges call: the array being updated
in place (null entries included), the additional ranges pushed so far,
the reason variable (reassigned by the paste reclassification and the
IDE-paste resolution, persisting across the remaining changes of the
batch), and the clear flag for the AI hint singleton. -/
structure UpdState where
  toUpdateRanges : List (Option ExtendedRange)
  additionalRanges : List ExtendedRange
  reason : UpdateReason
  clearFlag : Bool

/-- The classifier part of the per-change loop body: the emitted ranges,
the isAI flag for the fold, the clear-hint flag, the updated reason
variable, and whether the iteration continues before the fold (the
onBefore* branches, which only rewrite the module-level pending AI edit
batch, a value getUpdatedRanges does not return; that rewrite, like the
in-place trim of aiInfo.insertText, is invisible to the returned store
and is therefore not modelled). -/
def classifyChange (env : UpdateEnv) (reason1 : UpdateReason) (change : Change) :
    List ExtendedRange × Bool × Bool × UpdateReason × Bool :=
  if reason1 = UpdateReason.paste ∨ reason1 = UpdateReason.idePaste then
    let pasteContent := jsTrim change.text
    let resolved : UpdateReason × ExtendedRangeOptions :=
      if pasteContent.length > 0 then
        match env.checkRecentPaste pasteContent with
        | Option.some hit =>
            if hit.isIDE then
              let ideProps := env.resolveIDEPaste hit.workspacePath hit.relativePath
              (UpdateReason.idePaste,
                { pasteUrl := ideProps.1, pasteTitle := ideProps.2 })
            else (reason1, { pasteUrl := hit.url, pasteTitle := hit.title })
        | Option.none => (reason1, { pasteUrl := "", pasteTitle := "" })
      else (reason1, { pasteUrl := "", pasteTitle := "" })
    let kind := if resolved.1 = UpdateReason.idePaste then
      ExtendedRangeType.IDEPaste else ExtendedRangeType.Paste
    ([mkExtendedRange change.range.start
        (endFromText env change.range.start change.text) kind env.now "" resolved.2],
      false, false, resolved.1, false)
  else if reason1 = UpdateReason.aiGenerated then
    ([mkExtendedRange change.range.start
        (endFromText env change.range.start change.text)
        ExtendedRangeType.AIGenerated env.now "" (aiOptionsOf env.aiInfo)],
      true, true, reason1, false)
  else if reason1 = UpdateReason.undo ∨ reason1 = UpdateReason.redo then
    ([mkExtendedRange change.range.start
        (endFromText env change.range.start change.text)
        ExtendedRangeType.UndoRedo env.now "" ⟨"", "", "", "", "", ""⟩],
      false, false, reason1, false)
  else if (jsTrim change.text).length ≤ 1 ∧
      env.aiInfo.ty ∉ userEditExcludedTypes then
    ([mkExtendedRange change.range.start change.range.endPos
        ExtendedRangeType.UserEdit env.now "" ⟨"", "", "", "", "", ""⟩],
      false, false, reason1, false)
  else if env.aiInfo.ty = "onBeforeInsertEditTool" ∨
      env.aiInfo.ty = "onBeforeReplaceStringTool" then
    ([], false, false, reason1, true)
  else if env.aiInfo.ty = "onBeforeApplyPatchTool" ∨
      env.aiInfo.ty = "onBeforeCreateFileTool" then
    ([], false, false, reason1, true)
  else if aiMatches env change then
    ([mkExtendedRange change.range.start
        (endFromText env change.range.start change.text)
        ExtendedRangeType.AIGenerated env.now "" (aiOptionsOf env.aiInfo)],
      true,
      (env.aiInfo.ty = "onAfterApplyEdit" ∨
       env.aiInfo.ty = "onAfterReplaceStringTool" ∨
       env.aiInfo.ty = "onAfterApplyPatchTool"),
      reason1, false)
  else
    ([], false, false, reason1, false)

/-- The deletion sub-step of the interval-update loop: on a real overlap
(touch-only contacts excluded) a non-empty change either clamps the
interval out of the freshly inserted AI span (pushing the clamped copy
to the additional set and nulling the entry) or shrinks it, dropping it
when inverted. -/
def foldDeletion (env : UpdateEnv) (change : Change) (isAI : Bool)
    (currentRange : ExtendedRange) :
    Option ExtendedRange × List ExtendedRange :=
  if rangesIntersect change.range currentRange.plain &&
     !(posIsEqual change.range.endPos currentRange.start) &&
     !(posIsEqual change.range.start currentRange.endPos) then
    if !(posIsEqual change.range.start change.range.endPos) then
      if isAI then
        let aiChangeRangeStart := change.range.endPos
        let aiChangeRangeEnd := endFromText env change.range.start change.text
        let aiChangeRange := mkPlainRange aiChangeRangeStart aiChangeRangeEnd
        let newRangeStart := if rangeContainsPos aiChangeRange currentRange.start
          then aiChangeRangeEnd else currentRange.start
        let newRangeEnd := if rangeContainsPos aiChangeRange currentRange.endPos
          then aiChangeRangeStart else currentRange.endPos
        (Option.none,
          [mkExtendedRange newRangeStart newRangeEnd currentRange.rangeType
            currentRange.creationTimestamp currentRange.author currentRange.options])
      else
        let newRangeStart := if rangeContainsPos change.range currentRange.start
          then change.range.endPos else currentRange.start
        let newRangeEnd := if rangeContainsPos change.range currentRange.endPos
          then change.range.start else currentRange.endPos
        if posIsBefore newRangeEnd newRangeStart then (Option.none, [])
        else (Option.some (mkExtendedRange newRangeStart newRangeEnd
          currentRange.rangeType currentRange.creationTimestamp
          currentRange.author currentRange.options), [])
    else (Option.some currentRange, [])
  else (Option.some currentRange, [])

/-- One iteration of the interval-update loop on a non-null entry: the
deletion sub-step, the addition sub-step (split, yielding a second half
spliced in right after the current index and processed as the next
element), and the shift sub-step with the keep-the-tail special case.
Returns the stored entry, the spliced-in second half if any, and the
ranges pushed to the additional set. -/
def foldOne (env : UpdateEnv) (change : Change) (isAI : Bool)
    (currentRange : ExtendedRange) :
    Option ExtendedRange × Option ExtendedRange × List ExtendedRange :=
  -- onDeletion
  match foldDeletion env change isAI currentRange with
  | (Option.none, adds) => (Option.none, Option.none, adds)
  | (Option.some updatedRange, adds) =>
      -- onAddition
      let split : ExtendedRange × Option ExtendedRange :=
        if rangesIntersect change.range updatedRange.plain &&
           !(posIsEqual change.range.endPos updatedRange.start) &&
           !(posIsEqual change.range.start updatedRange.endPos) then
          if change.text ≠ [] then
            (mkExtendedRange updatedRange.start change.range.start
               updatedRange.rangeType updatedRange.creationTimestamp
               updatedRange.author updatedRange.options,
             Option.some (mkExtendedRange change.range.start updatedRange.endPos
               updatedRange.rangeType updatedRange.creationTimestamp
               updatedRange.author updatedRange.options))
          else (updatedRange, Option.none)
        else (updatedRange, Option.none)
      let finalRange := split.1
      -- shift
      let updatedRangeStart := getUpdatedPosition finalRange.start change
      let updatedRangeEnd :=
        if !(posIsEqual finalRange.start finalRange.endPos) &&
           posIsEqual finalRange.endPos change.range.endPos then
          finalRange.endPos
        else getUpdatedPosition finalRange.endPos change
      (Option.some (mkExtendedRange updatedRangeStart updatedRangeEnd
          finalRange.rangeType finalRange.creationTimestamp finalRange.author
          finalRange.options),
        split.2, adds)

/-- The indexed in-place loop over toUpdateRanges for one change.  A
spliced second half is processed as the next element.  The fuel is an
upper bound on the number of iterations; each original element splices
at most once and a spliced element never satisfies the split condition
again, so 2n + 2 suffices; on exhaustion the remaining entries are
returned untouched. -/
def foldRanges (env : UpdateEnv) (change : Change) (isAI : Bool) :
    Nat → List (Option ExtendedRange) →
    List (Option ExtendedRange) × List ExtendedRange
  | 0, rest => (rest, [])
  | _ + 1, [] => ([], [])
  | fuel + 1, Option.none :: rest =>
      let next := foldRanges env change isAI fuel rest
      (Option.none :: next.1, next.2)
  | fuel + 1, Option.some currentRange :: rest =>
      let step := foldOne env change isAI currentRange
      let pending := match step.2.1 with
        | Option.some second => Option.some second :: rest
        | Option.none => rest
      let next := foldRanges env change isAI fuel pending
      (step.1 :: next.1, step.2.2 ++ next.2)

/-- One full iteration of the per-change loop. -/
def stepChange (env : UpdateEnv) (pasteRanges : List ExtendedRange)
    (s : UpdState) (change : Change) : UpdState :=
  let reason1 :=
    if pasteRanges.any (fun pasteRange =>
        posIsEqual pasteRange.start change.range.start &&
        decide (pasteRange.creationTimestamp > env.now - 200)) then
      UpdateReason.paste
    else s.reason
  let cls := classifyChange env reason1 change
  if cls.2.2.2.2 then
    { s with reason := cls.2.2.2.1 }
  else
    let folded := foldRanges env change cls.2.1
      (2 * s.toUpdateRanges.length + 2) s.toUpdateRanges
    { toUpdateRanges := folded.1
      additionalRanges := s.additionalRanges ++ cls.1 ++ folded.2
      reason := cls.2.2.2.1
      clearFlag := s.clearFlag || cls.2.2.1 }

end Tabd

namespace Tabd

/-- The whole-file reverse-join normalisation: a batch of more than one
change whose last change ends at (0,0) becomes one change with the first
change's range and the concatenation of all texts in reverse order. -/
def normalizeChanges (changes : List Change) : List Change :=
  match changes with
  | [] => []
  | c0 :: rest =>
      let lastChange := (rest.getLast?).getD c0
      if rest ≠ [] ∧ lastChange.range.endPos = ⟨0, 0⟩ then
        [⟨c0.range, (((c0 :: rest).map (fun c => c.text)).reverse).flatten⟩]
      else c0 :: rest

/-- The order produced by sorting changes with the comparator
(c1, c2) => c2.range.start.compareTo(c1.range.start): descending starts,
ties in original order (JS sort is stable). -/
def changeDescLE (a b : Change) : Prop :=
  posLe b.range.start a.range.start

instance : DecidableRel changeDescLE := fun a b =>
  inferInstanceAs (Decidable (posLe b.range.start a.range.start))

/-- The sorted copy of the (normalised) batch. -/
def sortChangesDesc (changes : List Change) : List Change :=
  List.insertionSort changeDescLE changes

/-- The dedup-of-touching-empties post-pass: for each ordered pair
(i, j), i < j, with both entries non-null, if the ranges touch, drop the
second if it is empty, else drop the first if it is empty.  The entry at
i is captured at the start of its iteration, as in the source. -/
def postPass (arr : List (Option ExtendedRange)) : List (Option ExtendedRange) :=
  let n := arr.length
  (List.range n).foldl
    (fun acc i =>
      match acc.get? i with
      | Option.some (Option.some rangeI) =>
          (List.range' (i + 1) (n - (i + 1))).foldl
            (fun acc2 j =>
              match acc2.get? j with
              | Option.some (Option.some rangeJ) =>
                  if posIsEqual rangeI.endPos rangeJ.start ||
                     posIsEqual rangeI.start rangeJ.endPos then
                    if posIsEqual rangeJ.start rangeJ.endPos then
                      acc2.set j Option.none
                    else if posIsEqual rangeI.start rangeI.endPos then
                      acc2.set i Option.none
                    else acc2
                  else acc2
              | _ => acc2)
            acc
      | _ => acc)
    arr

/-- The folded state of one getUpdatedRanges call, before the post-pass
and the final concatenation. -/
def getUpdatedRangesCore (env : UpdateEnv) (ranges pasteRanges : List ExtendedRange)
    (changes : List Change) (reason : UpdateReason) : UpdState :=
  (sortChangesDesc (normalizeChanges changes)).foldl
    (stepChange env pasteRanges)
    ⟨ranges.map Option.some, [], reason, false⟩

/-- positionalTracking.ts getUpdatedRanges: normalise and sort the batch,
run the per-change loop, apply the post-pass to the updated entries, and
append the additional ranges. -/
def getUpdatedRanges (env : UpdateEnv) (ranges pasteRanges : List ExtendedRange)
    (changes : List Change) (reason : UpdateReason) : List ExtendedRange :=
  let st := getUpdatedRangesCore env ranges pasteRanges changes reason
  (postPass st.toUpdateRanges).reduceOption ++ st.additionalRanges

end Tabd

namespace Tabd

theorem mkExtendedRange_rangeType (a b : Pos) (t : ExtendedRangeType) (ts : Int)
    (au : String) (o : ExtendedRangeOptions) :
    (mkExtendedRange a b t ts au o).rangeType = t := by
  unfold mkExtendedRange
  split <;> rfl

theorem mkExtendedRange_ts (a b : Pos) (t : ExtendedRangeType) (ts : Int)
    (au : String) (o : ExtendedRangeOptions) :
    (mkExtendedRange a b t ts au o).creationTimestamp = ts := by
  unfold mkExtendedRange
  split <;> rfl

theorem posIsBeforeOrEqual_total (a b : Pos)
    (h : ¬ posIsBeforeOrEqual a b = true) : posIsBeforeOrEqual b a = true := by
  simp [posIsBeforeOrEqual] at *
  omega

theorem mkExtendedRange_wf (a b : Pos) (t : ExtendedRangeType) (ts : Int)
    (au : String) (o : ExtendedRangeOptions) :
    posIsBeforeOrEqual (mkExtendedRange a b t ts au o).start
      (mkExtendedRange a b t ts au o).endPos = true := by
  unfold mkExtendedRange
  by_cases h : posIsBeforeOrEqual a b = true
  · rw [if_pos h]
    exact h
  · rw [if_neg h]
    exact posIsBeforeOrEqual_total a b h

/-- Document oracle of a single-line document: offsets equal columns.
Used for the concrete scenarios, whose documents stay on line zero. -/
def singleLineEnv (now : Int) : UpdateEnv :=
  { now := now
    offsetAt := fun p => p.character
    positionAt := fun n => ⟨0, n⟩
    aiInfo := ⟨"initial", 0, Option.none, Option.none, Option.none, "", "", "", ""⟩
    checkRecentPaste := fun _ => Option.none
    resolveIDEPaste := fun _ _ => ("", "") }

/-- C4: evaluation of the code at the claim's input.  In scenario S1
(document abc, single edit inserting d at (0:3), empty store, no hints,
reason None) the typed-character branch emits the interval literally at
e.range, which for an insertion is the empty interval [0:3, 0:3]; the
claimed store of one UserEdit spanning [0:3, 0:4] (the span the sibling
branches compute as start plus replacement length, and the span an
earlier revision of this branch computed) is not produced. -/
theorem getUpdatedRanges_typed_char_empty :
    getUpdatedRanges (singleLineEnv 2000) [] []
      [⟨⟨⟨0, 3⟩, ⟨0, 3⟩⟩, ['d']⟩] UpdateReason.none =
      [ExtendedRange.mk ⟨0, 3⟩ ⟨0, 3⟩ ExtendedRangeType.UserEdit 2000 ""
        ⟨"", "", "", "", "", ""⟩] ∧
    ∀ ts : Int, getUpdatedRanges (singleLineEnv 2000) [] []
      [⟨⟨⟨0, 3⟩, ⟨0, 3⟩⟩, ['d']⟩] UpdateReason.none ≠
      [ExtendedRange.mk ⟨0, 3⟩ ⟨0, 4⟩ ExtendedRangeType.UserEdit ts ""
        ⟨"", "", "", "", "", ""⟩] := by
  have hres : getUpdatedRanges (singleLineEnv 2000) [] []
      [⟨⟨⟨0, 3⟩, ⟨0, 3⟩⟩, ['d']⟩] UpdateReason.none =
      [ExtendedRange.mk ⟨0, 3⟩ ⟨0, 3⟩ ExtendedRangeType.UserEdit 2000 ""
        ⟨"", "", "", "", "", ""⟩] := by decide
  refine ⟨hres, ?_⟩
  intro ts h
  rw [hres] at h
  simp only [List.cons.injEq, ExtendedRange.mk.injEq, Pos.mk.injEq] at h
  omega

end Tabd

namespace Tabd

/-- Claim-side predicate: the list is sorted by start position. -/
def storeSortedByStart : List ExtendedRange → Bool
  | [] => true
  | [_] => true
  | a :: b :: t =>
      posIsBeforeOrEqual a.start b.start && storeSortedByStart (b :: t)

/-- Claim-side predicate: no strict overlap between two non-empty
intervals of the list. -/
def storeNoStrictOverlap : List ExtendedRange → Bool
  | [] => true
  | a :: t =>
      t.all (fun b =>
        !( !(posIsEqual a.start a.endPos) && !(posIsEqual b.start b.endPos) &&
           posIsBefore a.start b.endPos && posIsBefore b.start a.endPos)) &&
      storeNoStrictOverlap t

/-- Claim-side predicate: no inverted intervals (end before start). -/
def storeNoInverted (l : List ExtendedRange) : Bool :=
  l.all (fun r => posIsBeforeOrEqual r.start r.endPos)

/-- Claim-side predicate: every endpoint within the document bounds
given by the last position of the document. -/
def storeWithinBounds (docEnd : Pos) (l : List ExtendedRange) : Bool :=
  l.all (fun r =>
    posIsBeforeOrEqual ⟨0, 0⟩ r.start && posIsBeforeOrEqual r.start docEnd &&
    posIsBeforeOrEqual ⟨0, 0⟩ r.endPos && posIsBeforeOrEqual r.endPos docEnd)

/-- Counterexample to C1 as stated.  Document abcde, store satisfying
every data-model invariant with one UserEdit over [0:2, 0:5], one edit
replacing [0:0, 0:4] by the single character x (reason None, no hints).
The typed-character branch emits UserEdit [0:0, 0:4] and appends it
after the fold-updated store, so the result [[0:1, 0:2], [0:0, 0:4]] is
unsorted, its two non-empty intervals strictly overlap, and the endpoint
(0:4) lies outside the final document xe, whose last position is (0:2). -/
theorem getUpdatedRanges_breaks_store_invariants :
    (storeSortedByStart
       [ExtendedRange.mk ⟨0, 2⟩ ⟨0, 5⟩ ExtendedRangeType.UserEdit 1000 "" ⟨"", "", "", "", "", ""⟩]
     && storeNoStrictOverlap
       [ExtendedRange.mk ⟨0, 2⟩ ⟨0, 5⟩ ExtendedRangeType.UserEdit 1000 "" ⟨"", "", "", "", "", ""⟩]
     && storeNoInverted
       [ExtendedRange.mk ⟨0, 2⟩ ⟨0, 5⟩ ExtendedRangeType.UserEdit 1000 "" ⟨"", "", "", "", "", ""⟩]
     && storeWithinBounds ⟨0, 5⟩
       [ExtendedRange.mk ⟨0, 2⟩ ⟨0, 5⟩ ExtendedRangeType.UserEdit 1000 "" ⟨"", "", "", "", "", ""⟩]) = true ∧
    getUpdatedRanges (singleLineEnv 2000)
      [ExtendedRange.mk ⟨0, 2⟩ ⟨0, 5⟩ ExtendedRangeType.UserEdit 1000 "" ⟨"", "", "", "", "", ""⟩]
      [] [⟨⟨⟨0, 0⟩, ⟨0, 4⟩⟩, ['x']⟩] UpdateReason.none =
      [ExtendedRange.mk ⟨0, 1⟩ ⟨0, 2⟩ ExtendedRangeType.UserEdit 1000 "" ⟨"", "", "", "", "", ""⟩,
       ExtendedRange.mk ⟨0, 0⟩ ⟨0, 4⟩ ExtendedRangeType.UserEdit 2000 "" ⟨"", "", "", "", "", ""⟩] ∧
    storeSortedByStart (getUpdatedRanges (singleLineEnv 2000)
      [ExtendedRange.mk ⟨0, 2⟩ ⟨0, 5⟩ ExtendedRangeType.UserEdit 1000 "" ⟨"", "", "", "", "", ""⟩]
      [] [⟨⟨⟨0, 0⟩, ⟨0, 4⟩⟩, ['x']⟩] UpdateReason.none) = false ∧
    storeNoStrictOverlap (getUpdatedRanges (singleLineEnv 2000)
      [ExtendedRange.mk ⟨0, 2⟩ ⟨0, 5⟩ ExtendedRangeType.UserEdit 1000 "" ⟨"", "", "", "", "", ""⟩]
      [] [⟨⟨⟨0, 0⟩, ⟨0, 4⟩⟩, ['x']⟩] UpdateReason.none) = false ∧
    storeWithinBounds ⟨0, 2⟩ (getUpdatedRanges (singleLineEnv 2000)
      [ExtendedRange.mk ⟨0, 2⟩ ⟨0, 5⟩ ExtendedRangeType.UserEdit 1000 "" ⟨"", "", "", "", "", ""⟩]
      [] [⟨⟨⟨0, 0⟩, ⟨0, 4⟩⟩, ['x']⟩] UpdateReason.none) = false := by
  refine ⟨by decide, by decide, by decide, by decide, by decide⟩

end Tabd

namespace Tabd

theorem foldDeletion_wf (env : UpdateEnv) (change : Change) (isAI : Bool)
    (cur : ExtendedRange) :
    (∀ r, (foldDeletion env change isAI cur).1 = Option.some r →
      r = cur ∨ posIsBeforeOrEqual r.start r.endPos = true) ∧
    (∀ r ∈ (foldDeletion env change isAI cur).2,
      posIsBeforeOrEqual r.start r.endPos = true) := by
  unfold foldDeletion
  split_ifs <;>
    refine ⟨?_, ?_⟩ <;>
    intro r hr <;>
    (try dsimp only at hr) <;>
    (try split at hr) <;>
    (try simp at hr) <;>
    first
      | exact hr.elim
      | (subst hr; exact Or.inl rfl)
      | (subst hr; exact Or.inr (mkExtendedRange_wf ..))
      | (subst hr; exact mkExtendedRange_wf ..)

theorem foldOne_wf (env : UpdateEnv) (change : Change) (isAI : Bool)
    (cur : ExtendedRange) :
    (∀ r, (foldOne env change isAI cur).1 = Option.some r →
      posIsBeforeOrEqual r.start r.endPos = true) ∧
    (∀ r, (foldOne env change isAI cur).2.1 = Option.some r →
      posIsBeforeOrEqual r.start r.endPos = true) ∧
    (∀ r ∈ (foldOne env change isAI cur).2.2,
      posIsBeforeOrEqual r.start r.endPos = true) := by
  have hdel := foldDeletion_wf env change isAI cur
  unfold foldOne
  rcases hd : foldDeletion env change isAI cur with ⟨res, adds⟩
  rw [hd] at hdel
  rcases res with _ | updatedRange
  · exact ⟨by simp, by simp, fun r hr => hdel.2 r hr⟩
  · refine ⟨?_, ?_, fun r hr => hdel.2 r hr⟩
    · intro r hr
      simp only [Option.some.injEq] at hr
      subst hr
      exact mkExtendedRange_wf ..
    · intro r hr
      simp only at hr
      split at hr
      · split at hr
        · simp only [Option.some.injEq] at hr
          subst hr
          exact mkExtendedRange_wf ..
        · exact absurd hr (by simp)
      · exact absurd hr (by simp)

end Tabd

namespace Tabd

/-- Entry-wise wellformedness of the fold state. -/
def stateWF (s : UpdState) : Prop :=
  (∀ o ∈ s.toUpdateRanges, ∀ r, o = Option.some r →
    posIsBeforeOrEqual r.start r.endPos = true) ∧
  (∀ r ∈ s.additionalRanges, posIsBeforeOrEqual r.start r.endPos = true)

theorem foldRanges_wf (env : UpdateEnv) (change : Change) (isAI : Bool) :
    ∀ (fuel : Nat) (arr : List (Option ExtendedRange)),
    (∀ o ∈ arr, ∀ r, o = Option.some r →
      posIsBeforeOrEqual r.start r.endPos = true) →
    ((∀ o ∈ (foldRanges env change isAI fuel arr).1, ∀ r, o = Option.some r →
       posIsBeforeOrEqual r.start r.endPos = true) ∧
     (∀ r ∈ (foldRanges env change isAI fuel arr).2,
       posIsBeforeOrEqual r.start r.endPos = true)) := by
  intro fuel
  induction fuel with
  | zero =>
      intro arr harr
      exact ⟨harr, by simp [foldRanges]⟩
  | succ fuel ih =>
      intro arr harr
      rcases arr with _ | ⟨o, rest⟩
      · simp [foldRanges]
      · rcases o with _ | cur
        · have hrest := ih rest (fun o ho r hr => harr o (by simp [ho]) r hr)
          simp only [foldRanges]
          refine ⟨?_, hrest.2⟩
          intro o ho r hr
          rcases List.mem_cons.mp ho with ho | ho
          · subst ho
            exact absurd hr (by simp)
          · exact hrest.1 o ho r hr
        · have hone := foldOne_wf env change isAI cur
          simp only [foldRanges]
          have hpending : ∀ o ∈ (match (foldOne env change isAI cur).2.1 with
              | Option.some second => Option.some second :: rest
              | Option.none => rest), ∀ r, o = Option.some r →
              posIsBeforeOrEqual r.start r.endPos = true := by
            rcases hi : (foldOne env change isAI cur).2.1 with _ | second
            · exact fun o ho r hr => harr o (by simp [ho]) r hr
            · intro o ho r hr
              rcases List.mem_cons.mp ho with ho | ho
              · subst ho
                simp only [Option.some.injEq] at hr
                subst hr
                exact hone.2.1 second hi
              · exact harr o (by simp [ho]) r hr
          have hrec := ih _ hpending
          refine ⟨?_, ?_⟩
          · intro o ho r hr
            rcases List.mem_cons.mp ho with ho | ho
            · subst ho
              exact hone.1 r hr
            · exact hrec.1 o ho r hr
          · intro r hr
            rcases List.mem_append.mp hr with hr | hr
            · exact hone.2.2 r hr
            · exact hrec.2 r hr

theorem classifyChange_wf (env : UpdateEnv) (reason1 : UpdateReason)
    (change : Change) :
    ∀ r ∈ (classifyChange env reason1 change).1,
      posIsBeforeOrEqual r.start r.endPos = true := by
  intro r hr
  unfold classifyChange at hr
  split_ifs at hr <;>
    simp only [List.mem_singleton, List.not_mem_nil] at hr <;>
    (try subst hr) <;>
    first
      | exact mkExtendedRange_wf ..
      | exact hr.elim

theorem stepChange_wf (env : UpdateEnv) (pasteRanges : List ExtendedRange)
    (s : UpdState) (change : Change) (hs : stateWF s) :
    stateWF (stepChange env pasteRanges s change) := by
  unfold stepChange
  dsimp only
  split <;> (try split) <;>
    first
      | exact ⟨hs.1, hs.2⟩
      | (refine ⟨(foldRanges_wf env change _ _ _ hs.1).1, ?_⟩
         intro r hr
         rcases List.mem_append.mp hr with hr | hr
         · rcases List.mem_append.mp hr with hr | hr
           · exact hs.2 r hr
           · exact classifyChange_wf _ _ _ r hr
         · exact (foldRanges_wf env change _ _ _ hs.1).2 r hr)

end Tabd

namespace Tabd

theorem foldl_entries_sub {β : Type}
    (f : List (Option ExtendedRange) → β → List (Option ExtendedRange))
    (hf : ∀ acc x, ∀ o ∈ f acc x, o ∈ acc ∨ o = Option.none) :
    ∀ (l : List β) (acc : List (Option ExtendedRange)),
    ∀ o ∈ l.foldl f acc, o ∈ acc ∨ o = Option.none := by
  intro l
  induction l with
  | nil => exact fun acc o ho => Or.inl ho
  | cons x xs ih =>
      intro acc o ho
      simp only [List.foldl_cons] at ho
      rcases ih (f acc x) o ho with h | h
      · exact hf acc x o h
      · exact Or.inr h

/-- Entries of the post-pass are entries of its input or null: the pass
only writes null. -/
theorem postPass_mem (arr : List (Option ExtendedRange)) :
    ∀ o ∈ postPass arr, o ∈ arr ∨ o = Option.none := by
  unfold postPass
  dsimp only
  refine foldl_entries_sub _ ?_ _ _
  intro acc i o ho
  split at ho
  · refine foldl_entries_sub _ ?_ _ _ o ho
    intro acc2 j o2 ho2
    split at ho2
    · split_ifs at ho2 <;>
        first
          | exact Or.inl ho2
          | (rcases List.mem_or_eq_of_mem_set ho2 with h | h
             · exact Or.inl h
             · exact Or.inr h)
    · exact Or.inl ho2
  · exact Or.inl ho

end Tabd

namespace Tabd

theorem foldl_stepChange_wf (env : UpdateEnv) (pasteRanges : List ExtendedRange) :
    ∀ (l : List Change) (s : UpdState), stateWF s →
    stateWF (l.foldl (stepChange env pasteRanges) s) := by
  intro l
  induction l with
  | nil => exact fun s hs => hs
  | cons c cs ih =>
      intro s hs
      simp only [List.foldl_cons]
      exact ih _ (stepChange_wf env pasteRanges s c hs)

/-- C1 (amended): of the four claimed invariants only the absence of
inverted intervals survives the transform; for every input store whose
intervals are well formed, every interval of the returned store has
start less than or equal to end (every constructed range passes through
the vscode.Range constructor, which normalises its endpoints).  The
returned store need not be sorted, free of strict overlaps, or within
the document bounds. -/
theorem getUpdatedRanges_no_inverted (env : UpdateEnv)
    (ranges pasteRanges : List ExtendedRange) (changes : List Change)
    (reason : UpdateReason)
    (h : ∀ r ∈ ranges, posIsBeforeOrEqual r.start r.endPos = true) :
    ∀ r ∈ getUpdatedRanges env ranges pasteRanges changes reason,
      posIsBeforeOrEqual r.start r.endPos = true := by
  have hinit : stateWF ⟨ranges.map Option.some, [], reason, false⟩ := by
    refine ⟨?_, by simp⟩
    intro o ho r hr
    simp only [List.mem_map] at ho
    obtain ⟨x, hx, rfl⟩ := ho
    simp only [Option.some.injEq] at hr
    subst hr
    exact h x hx
  have hcore : stateWF (getUpdatedRangesCore env ranges pasteRanges changes reason) :=
    foldl_stepChange_wf env pasteRanges _ _ hinit
  intro r hr
  unfold getUpdatedRanges at hr
  rcases List.mem_append.mp hr with hr | hr
  · have hsome : Option.some r ∈
        postPass (getUpdatedRangesCore env ranges pasteRanges changes reason).toUpdateRanges := by
      exact List.reduceOption_mem_iff.mp hr
    rcases postPass_mem _ _ hsome with hmem | hnone
    · exact hcore.1 _ hmem r rfl
    · exact absurd hnone (by simp)
  · exact hcore.2 r hr

/-- Witness for the amended C1 at the counterexample input itself. -/
theorem getUpdatedRanges_no_inverted_witness :
    (∀ r ∈ [ExtendedRange.mk ⟨0, 2⟩ ⟨0, 5⟩ ExtendedRangeType.UserEdit 1000 ""
        ⟨"", "", "", "", "", ""⟩],
      posIsBeforeOrEqual r.start r.endPos = true) ∧
    (∀ r ∈ getUpdatedRanges (singleLineEnv 2000)
        [ExtendedRange.mk ⟨0, 2⟩ ⟨0, 5⟩ ExtendedRangeType.UserEdit 1000 ""
          ⟨"", "", "", "", "", ""⟩]
        [] [⟨⟨⟨0, 0⟩, ⟨0, 4⟩⟩, ['x']⟩] UpdateReason.none,
      posIsBeforeOrEqual r.start r.endPos = true) :=
  ⟨by decide,
    getUpdatedRanges_no_inverted (singleLineEnv 2000) _ [] _ UpdateReason.none
      (by decide)⟩

end Tabd

namespace Tabd

theorem foldDeletion_type (env : UpdateEnv) (change : Change) (isAI : Bool)
    (cur : ExtendedRange) :
    (∀ r, (foldDeletion env change isAI cur).1 = Option.some r →
      r.rangeType = cur.rangeType) ∧
    (∀ r ∈ (foldDeletion env change isAI cur).2, r.rangeType = cur.rangeType) := by
  unfold foldDeletion
  split_ifs <;>
    refine ⟨?_, ?_⟩ <;>
    intro r hr <;>
    (try dsimp only at hr) <;>
    (try split at hr) <;>
    (try simp at hr) <;>
    first
      | exact hr.elim
      | (subst hr; rfl)
      | (subst hr; exact mkExtendedRange_rangeType ..)

theorem foldOne_type (env : UpdateEnv) (change : Change) (isAI : Bool)
    (cur : ExtendedRange) :
    (∀ r, (foldOne env change isAI cur).1 = Option.some r →
      r.rangeType = cur.rangeType) ∧
    (∀ r, (foldOne env change isAI cur).2.1 = Option.some r →
      r.rangeType = cur.rangeType) ∧
    (∀ r ∈ (foldOne env change isAI cur).2.2, r.rangeType = cur.rangeType) := by
  have hdel := foldDeletion_type env change isAI cur
  unfold foldOne
  rcases hd : foldDeletion env change isAI cur with ⟨res, adds⟩
  rw [hd] at hdel
  rcases res with _ | updatedRange
  · exact ⟨by simp, by simp, fun r hr => hdel.2 r hr⟩
  · have hup : updatedRange.rangeType = cur.rangeType := hdel.1 updatedRange rfl
    refine ⟨?_, ?_, fun r hr => hdel.2 r hr⟩
    · intro r hr
      simp only [Option.some.injEq] at hr
      subst hr
      rw [mkExtendedRange_rangeType]
      split <;> (try split) <;> simp [mkExtendedRange_rangeType, hup]
    · intro r hr
      simp only at hr
      split at hr
      · split at hr
        · simp only [Option.some.injEq] at hr
          subst hr
          rw [mkExtendedRange_rangeType]
          exact hup
        · exact absurd hr (by simp)
      · exact absurd hr (by simp)

theorem foldRanges_type (env : UpdateEnv) (change : Change) (isAI : Bool)
    (Q : ExtendedRangeType → Prop) :
    ∀ (fuel : Nat) (arr : List (Option ExtendedRange)),
    (∀ o ∈ arr, ∀ r, o = Option.some r → Q r.rangeType) →
    ((∀ o ∈ (foldRanges env change isAI fuel arr).1, ∀ r, o = Option.some r →
       Q r.rangeType) ∧
     (∀ r ∈ (foldRanges env change isAI fuel arr).2, Q r.rangeType)) := by
  intro fuel
  induction fuel with
  | zero =>
      intro arr harr
      exact ⟨harr, by simp [foldRanges]⟩
  | succ fuel ih =>
      intro arr harr
      rcases arr with _ | ⟨o, rest⟩
      · simp [foldRanges]
      · rcases o with _ | cur
        · have hrest := ih rest (fun o ho r hr => harr o (by simp [ho]) r hr)
          simp only [foldRanges]
          refine ⟨?_, hrest.2⟩
          intro o ho r hr
          rcases List.mem_cons.mp ho with ho | ho
          · subst ho
            exact absurd hr (by simp)
          · exact hrest.1 o ho r hr
        · have hcur : Q cur.rangeType := harr _ (by simp) cur rfl
          have hone := foldOne_type env change isAI cur
          simp only [foldRanges]
          have hpending : ∀ o ∈ (match (foldOne env change isAI cur).2.1 with
              | Option.some second => Option.some second :: rest
              | Option.none => rest), ∀ r, o = Option.some r → Q r.rangeType := by
            rcases hi : (foldOne env change isAI cur).2.1 with _ | second
            · exact fun o ho r hr => harr o (by simp [ho]) r hr
            · intro o ho r hr
              rcases List.mem_cons.mp ho with ho | ho
              · subst ho
                simp only [Option.some.injEq] at hr
                subst hr
                rw [hone.2.1 second hi]
                exact hcur
              · exact harr o (by simp [ho]) r hr
          have hrec := ih _ hpending
          refine ⟨?_, ?_⟩
          · intro o ho r hr
            rcases List.mem_cons.mp ho with ho | ho
            · subst ho
              rw [hone.1 r hr]
              exact hcur
            · exact hrec.1 o ho r hr
          · intro r hr
            rcases List.mem_append.mp hr with hr | hr
            · rw [hone.2.2 r hr]
              exact hcur
            · exact hrec.2 r hr

end Tabd

namespace Tabd

theorem foldDeletion_false_adds (env : UpdateEnv) (change : Change)
    (cur : ExtendedRange) : (foldDeletion env change false cur).2 = [] := by
  unfold foldDeletion
  split_ifs <;> first | rfl | assumption | (dsimp only; split <;> rfl)

theorem foldOne_false_adds (env : UpdateEnv) (change : Change)
    (cur : ExtendedRange) : (foldOne env change false cur).2.2 = [] := by
  unfold foldOne
  rcases hd : foldDeletion env change false cur with ⟨res, adds⟩
  have : adds = [] := by
    have := foldDeletion_false_adds env change cur
    rw [hd] at this
    exact this
  subst this
  rcases res with _ | u <;> rfl

theorem foldRanges_false_adds (env : UpdateEnv) (change : Change) :
    ∀ (fuel : Nat) (arr : List (Option ExtendedRange)),
    (foldRanges env change false fuel arr).2 = [] := by
  intro fuel
  induction fuel with
  | zero => intro arr; rfl
  | succ fuel ih =>
      intro arr
      rcases arr with _ | ⟨o, rest⟩
      · rfl
      · rcases o with _ | cur
        · simp only [foldRanges]
          exact ih rest
        · simp only [foldRanges]
          rw [foldOne_false_adds, ih]
          rfl

theorem normalizeChanges_single (e : Change) : normalizeChanges [e] = [e] := by
  simp [normalizeChanges]

theorem sortChangesDesc_single (e : Change) : sortChangesDesc [e] = [e] := rfl

theorem core_single (env : UpdateEnv) (store hints : List ExtendedRange)
    (e : Change) (r0 : UpdateReason) :
    getUpdatedRangesCore env store hints [e] r0 =
      stepChange env hints ⟨store.map Option.some, [], r0, false⟩ e := by
  unfold getUpdatedRangesCore
  rw [normalizeChanges_single, sortChangesDesc_single]
  rfl

theorem ite_paste_kind (c : Prop) [Decidable c] :
    (if c then ExtendedRangeType.IDEPaste else ExtendedRangeType.Paste) =
        ExtendedRangeType.Paste ∨
    (if c then ExtendedRangeType.IDEPaste else ExtendedRangeType.Paste) =
        ExtendedRangeType.IDEPaste := by
  split
  · exact Or.inr rfl
  · exact Or.inl rfl

theorem classifyChange_paste (env : UpdateEnv) (e : Change) :
    ∃ iv r2,
      classifyChange env UpdateReason.paste e = ([iv], false, false, r2, false) ∧
      (iv.rangeType = ExtendedRangeType.Paste ∨
       iv.rangeType = ExtendedRangeType.IDEPaste) := by
  unfold classifyChange
  rw [if_pos (Or.inl rfl)]
  refine ⟨_, _, rfl, ?_⟩
  rw [mkExtendedRange_rangeType]
  exact ite_paste_kind _

theorem classifyChange_none_no_paste (env : UpdateEnv) (e : Change) :
    ∀ r ∈ (classifyChange env UpdateReason.none e).1,
      r.rangeType ≠ ExtendedRangeType.Paste ∧
      r.rangeType ≠ ExtendedRangeType.IDEPaste := by
  intro r hr
  unfold classifyChange at hr
  rw [if_neg (by simp), if_neg (by simp), if_neg (by simp)] at hr
  split_ifs at hr <;>
    simp only [List.mem_singleton, List.not_mem_nil] at hr <;>
    first
      | exact hr.elim
      | (subst hr; rw [mkExtendedRange_rangeType]; exact ⟨by simp, by simp⟩)

end Tabd

namespace Tabd

/-- C5: a paste hint whose start equals the edit's start and whose
creation timestamp is strictly within 200 ms of now reclassifies the
edit: the classifier emits exactly one interval, of kind Paste or
IDEPaste, which is pushed to the additional set and appears in the
returned store (whatever the prior reason was); when no hint at that
start is within the window, an edit processed with reason None never
introduces a Paste or IDEPaste interval: every interval in the result
of a store free of such kinds is itself free of them. -/
theorem getUpdatedRanges_paste_hint_window (env : UpdateEnv)
    (store pasteRanges : List ExtendedRange) (e : Change) :
    (∀ r0 : UpdateReason,
      pasteRanges.any (fun pasteRange =>
          posIsEqual pasteRange.start e.range.start &&
          decide (pasteRange.creationTimestamp > env.now - 200)) = true →
      ∃ iv, (iv.rangeType = ExtendedRangeType.Paste ∨
             iv.rangeType = ExtendedRangeType.IDEPaste) ∧
        (getUpdatedRangesCore env store pasteRanges [e] r0).additionalRanges
          = [iv] ∧
        iv ∈ getUpdatedRanges env store pasteRanges [e] r0) ∧
    (pasteRanges.any (fun pasteRange =>
        posIsEqual pasteRange.start e.range.start &&
        decide (pasteRange.creationTimestamp > env.now - 200)) = false →
      (∀ r ∈ store, r.rangeType ≠ ExtendedRangeType.Paste ∧
          r.rangeType ≠ ExtendedRangeType.IDEPaste) →
      ∀ r ∈ getUpdatedRanges env store pasteRanges [e] UpdateReason.none,
        r.rangeType ≠ ExtendedRangeType.Paste ∧
        r.rangeType ≠ ExtendedRangeType.IDEPaste) := by
  constructor
  · intro r0 hhit
    obtain ⟨iv, r2, hcls, hkind⟩ := classifyChange_paste env e
    have hadds : (getUpdatedRangesCore env store pasteRanges [e]
        r0).additionalRanges = [iv] := by
      rw [core_single]
      unfold stepChange
      dsimp only
      rw [if_pos hhit, hcls]
      simp [foldRanges_false_adds]
    refine ⟨iv, hkind, hadds, ?_⟩
    unfold getUpdatedRanges
    dsimp only
    rw [hadds]
    exact List.mem_append_right _ (List.mem_singleton_self _)
  · intro hmiss hstore
    have hents0 : ∀ o ∈ store.map Option.some, ∀ r, o = Option.some r →
        r.rangeType ≠ ExtendedRangeType.Paste ∧
        r.rangeType ≠ ExtendedRangeType.IDEPaste := by
      intro o ho r hor
      subst hor
      obtain ⟨a, ha, hao⟩ := List.mem_map.mp ho
      have hae : a = r := Option.some.inj hao
      subst hae
      exact hstore a ha
    have hQcore :
        (∀ o ∈ (getUpdatedRangesCore env store pasteRanges [e]
            UpdateReason.none).toUpdateRanges, ∀ r, o = Option.some r →
          r.rangeType ≠ ExtendedRangeType.Paste ∧
          r.rangeType ≠ ExtendedRangeType.IDEPaste) ∧
        (∀ r ∈ (getUpdatedRangesCore env store pasteRanges [e]
            UpdateReason.none).additionalRanges,
          r.rangeType ≠ ExtendedRangeType.Paste ∧
          r.rangeType ≠ ExtendedRangeType.IDEPaste) := by
      rw [core_single]
      unfold stepChange
      dsimp only
      simp only [hmiss, Bool.false_eq_true, if_false]
      split
      · exact ⟨hents0, by simp⟩
      · constructor
        · exact (foldRanges_type env e _
            (fun t => t ≠ ExtendedRangeType.Paste ∧
              t ≠ ExtendedRangeType.IDEPaste) _ _ hents0).1
        · intro r hr
          rcases List.mem_append.mp hr with h | h
          · rcases List.mem_append.mp h with h1 | h1
            · exact absurd h1 (List.not_mem_nil _)
            · exact classifyChange_none_no_paste env e r h1
          · exact (foldRanges_type env e _
              (fun t => t ≠ ExtendedRangeType.Paste ∧
                t ≠ ExtendedRangeType.IDEPaste) _ _ hents0).2 r h
    intro r hr
    unfold getUpdatedRanges at hr
    dsimp only at hr
    rcases List.mem_append.mp hr with h | h
    · have hsome : Option.some r ∈ postPass (getUpdatedRangesCore env store
          pasteRanges [e] UpdateReason.none).toUpdateRanges :=
        List.reduceOption_mem_iff.mp h
      rcases postPass_mem _ _ hsome with h2 | h2
      · exact hQcore.1 _ h2 r rfl
      · exact absurd h2 (by simp)
    · exact hQcore.2 r h

end Tabd

namespace Tabd

theorem getUpdatedRanges_paste_hint_window_witness :
    (∃ iv, (iv.rangeType = ExtendedRangeType.Paste ∨
            iv.rangeType = ExtendedRangeType.IDEPaste) ∧
      (getUpdatedRangesCore (singleLineEnv 1000) []
          [mkExtendedRange ⟨0, 2⟩ ⟨0, 3⟩ ExtendedRangeType.Paste 900 ""
            ⟨"", "", "", "", "", ""⟩]
          [⟨⟨⟨0, 2⟩, ⟨0, 2⟩⟩, ['x']⟩] UpdateReason.none).additionalRanges
        = [iv] ∧
      iv ∈ getUpdatedRanges (singleLineEnv 1000) []
          [mkExtendedRange ⟨0, 2⟩ ⟨0, 3⟩ ExtendedRangeType.Paste 900 ""
            ⟨"", "", "", "", "", ""⟩]
          [⟨⟨⟨0, 2⟩, ⟨0, 2⟩⟩, ['x']⟩] UpdateReason.none) ∧
    (∀ r ∈ getUpdatedRanges (singleLineEnv 1000) []
          [mkExtendedRange ⟨0, 2⟩ ⟨0, 3⟩ ExtendedRangeType.Paste 700 ""
            ⟨"", "", "", "", "", ""⟩]
          [⟨⟨⟨0, 2⟩, ⟨0, 2⟩⟩, ['x']⟩] UpdateReason.none,
        r.rangeType ≠ ExtendedRangeType.Paste ∧
        r.rangeType ≠ ExtendedRangeType.IDEPaste) :=
  ⟨(getUpdatedRanges_paste_hint_window (singleLineEnv 1000) [] _ _).1
      UpdateReason.none (by decide),
   (getUpdatedRanges_paste_hint_window (singleLineEnv 1000) [] _ _).2
      (by decide) (by decide)⟩

end Tabd

namespace Tabd

theorem stepChange_additional_append (env : UpdateEnv)
    (pasteRanges : List ExtendedRange) (s : UpdState) (e : Change) :
    ∃ t, s.additionalRanges ++ t =
      (stepChange env pasteRanges s e).additionalRanges := by
  unfold stepChange
  dsimp only
  split <;> split <;>
    first
      | exact ⟨_, (List.append_assoc _ _ _).symm⟩
      | exact ⟨[], by simp⟩

theorem foldl_stepChange_additional (env : UpdateEnv)
    (pasteRanges : List ExtendedRange) :
    ∀ (l : List Change) (s : UpdState),
    ∃ t, s.additionalRanges ++ t =
      (l.foldl (stepChange env pasteRanges) s).additionalRanges := by
  intro l
  induction l with
  | nil => exact fun s => ⟨[], by simp⟩
  | cons c cs ih =>
      intro s
      obtain ⟨t1, h1⟩ := stepChange_additional_append env pasteRanges s c
      obtain ⟨t2, h2⟩ := ih (stepChange env pasteRanges s c)
      refine ⟨t1 ++ t2, ?_⟩
      rw [List.foldl_cons, ← h2, ← h1, List.append_assoc]

/-- C10: intervals pushed to the additional set during one apply call are
returned verbatim.  (a) The returned store is exactly the post-passed
fold entries followed by the additional set.  (b) The additional set
grows append-only: after any prefix of the sorted normalised batch, the
ranges already pushed form, unchanged and in order, a prefix of the
final additional set, so later edits of the batch never shift, split or
drop them.  (c) Every range of the additional set is a member of the
returned store: the post-pass runs only on the fold entries, so even an
empty additional range touching another interval survives. -/
theorem getUpdatedRanges_additional_verbatim (env : UpdateEnv)
    (store pasteRanges : List ExtendedRange) (changes : List Change)
    (r0 : UpdateReason) :
    (getUpdatedRanges env store pasteRanges changes r0 =
      (postPass (getUpdatedRangesCore env store pasteRanges changes
          r0).toUpdateRanges).reduceOption ++
      (getUpdatedRangesCore env store pasteRanges changes
          r0).additionalRanges) ∧
    (∀ l1 l2, sortChangesDesc (normalizeChanges changes) = l1 ++ l2 →
      ∃ t, (l1.foldl (stepChange env pasteRanges)
          ⟨store.map Option.some, [], r0, false⟩).additionalRanges ++ t =
        (getUpdatedRangesCore env store pasteRanges changes
            r0).additionalRanges) ∧
    (∀ iv ∈ (getUpdatedRangesCore env store pasteRanges changes
        r0).additionalRanges,
      iv ∈ getUpdatedRanges env store pasteRanges changes r0) := by
  refine ⟨rfl, ?_, ?_⟩
  · intro l1 l2 hsplit
    unfold getUpdatedRangesCore
    rw [hsplit, List.foldl_append]
    exact foldl_stepChange_additional env pasteRanges l2 _
  · intro iv h
    exact List.mem_append_right _ h

theorem getUpdatedRanges_additional_verbatim_witness :
    (∃ t, (([] : List Change).foldl
        (stepChange (singleLineEnv 1000) [])
        ⟨([] : List ExtendedRange).map Option.some, [],
          UpdateReason.paste, false⟩).additionalRanges ++ t =
      (getUpdatedRangesCore (singleLineEnv 1000) [] []
          [⟨⟨⟨0, 2⟩, ⟨0, 2⟩⟩, ['x']⟩]
          UpdateReason.paste).additionalRanges) ∧
    ExtendedRange.mk ⟨0, 2⟩ ⟨0, 3⟩ ExtendedRangeType.Paste 1000 ""
        ⟨"", "", "", "", "", ""⟩ ∈
      getUpdatedRanges (singleLineEnv 1000) [] []
        [⟨⟨⟨0, 2⟩, ⟨0, 2⟩⟩, ['x']⟩] UpdateReason.paste :=
  ⟨(getUpdatedRanges_additional_verbatim (singleLineEnv 1000) [] []
      [⟨⟨⟨0, 2⟩, ⟨0, 2⟩⟩, ['x']⟩] UpdateReason.paste).2.1
      [] [⟨⟨⟨0, 2⟩, ⟨0, 2⟩⟩, ['x']⟩] rfl,
   (getUpdatedRanges_additional_verbatim (singleLineEnv 1000) [] []
      [⟨⟨⟨0, 2⟩, ⟨0, 2⟩⟩, ['x']⟩] UpdateReason.paste).2.2
      (ExtendedRange.mk ⟨0, 2⟩ ⟨0, 3⟩ ExtendedRangeType.Paste 1000 ""
        ⟨"", "", "", "", "", ""⟩) (by decide)⟩

end Tabd

namespace Tabd

theorem foldl_all {α β : Type} (P : α → Prop) (f : List α → β → List α)
    (Q : β → Prop)
    (hf : ∀ acc x, Q x → (∀ r ∈ acc, P r) → ∀ r ∈ f acc x, P r) :
    ∀ (l : List β), (∀ x ∈ l, Q x) → ∀ (acc : List α), (∀ r ∈ acc, P r) →
    ∀ r ∈ l.foldl f acc, P r := by
  intro l
  induction l with
  | nil => exact fun _ acc hacc => hacc
  | cons x xs ih =>
      intro hl acc hacc
      simp only [List.foldl_cons]
      exact ih (fun y hy => hl y (List.mem_cons_of_mem x hy)) _
        (hf acc x (hl x (List.mem_cons_self x xs)) hacc)

theorem slicePiece_ts_le (B : Int) (src : ExtendedRange) (a b : Pos)
    (h : src.creationTimestamp ≤ B) :
    ∀ r ∈ slicePiece src a b, r.creationTimestamp ≤ B := by
  intro r hr
  unfold slicePiece at hr
  dsimp only at hr
  split at hr
  · have he := List.mem_singleton.mp hr
    subst he
    unfold sliceOf
    rw [mkExtendedRange_ts]
    exact h
  · exact absurd hr (List.not_mem_nil _)

theorem resolveOne_ts_le (B : Int) (n ex : ExtendedRange)
    (acc : List ExtendedRange × Bool)
    (hn : n.creationTimestamp ≤ B)
    (hacc : ∀ r ∈ acc.1, r.creationTimestamp ≤ B)
    (hex : ex.creationTimestamp ≤ B) :
    ∀ r ∈ (resolveOne n acc ex).1, r.creationTimestamp ≤ B := by
  intro r hr
  unfold resolveOne at hr
  split_ifs at hr <;>
    simp only [List.mem_append, List.mem_singleton, List.not_mem_nil,
      or_false, false_or] at hr <;>
    (repeat
      (first
        | exact hacc _ hr
        | exact slicePiece_ts_le B ex _ _ hex _ hr
        | exact slicePiece_ts_le B n _ _ hn _ hr
        | (subst hr; exact hex)
        | (rcases hr with hr | hr)))

theorem resolve_foldl_ts_le (B : Int) (n : ExtendedRange)
    (hn : n.creationTimestamp ≤ B) :
    ∀ (l : List ExtendedRange) (acc : List ExtendedRange × Bool),
    (∀ r ∈ acc.1, r.creationTimestamp ≤ B) →
    (∀ r ∈ l, r.creationTimestamp ≤ B) →
    ∀ r ∈ (l.foldl (resolveOne n) acc).1, r.creationTimestamp ≤ B := by
  intro l
  induction l with
  | nil => exact fun acc hacc _ => hacc
  | cons x xs ih =>
      intro acc hacc hl
      simp only [List.foldl_cons]
      exact ih _ (resolveOne_ts_le B n x acc hn hacc
          (hl x (List.mem_cons_self x xs)))
        (fun r hr => hl r (List.mem_cons_of_mem x hr))

theorem dedup_foldl_mem :
    ∀ (l acc : List ExtendedRange),
    ∀ r ∈ l.foldl
      (fun uniqueRanges range =>
        if uniqueRanges.any (fun existing => sameRangeKey existing range) then
          uniqueRanges
        else uniqueRanges ++ [range]) acc,
    r ∈ acc ∨ r ∈ l := by
  intro l
  induction l with
  | nil => exact fun acc r hr => Or.inl hr
  | cons x xs ih =>
      intro acc r hr
      simp only [List.foldl_cons] at hr
      rcases ih _ r hr with h | h
      · split at h
        · exact Or.inl h
        · rcases List.mem_append.mp h with h1 | h1
          · exact Or.inl h1
          · rw [List.mem_singleton.mp h1]
            exact Or.inr (List.mem_cons_self x xs)
      · exact Or.inr (List.mem_cons_of_mem x h)

theorem deduplicateRanges_mem (l : List ExtendedRange) :
    ∀ r ∈ deduplicateRanges l, r ∈ l := by
  intro r hr
  rcases dedup_foldl_mem l [] r hr with h | h
  · exact absurd h (List.not_mem_nil _)
  · exact h

theorem mergeRangesSequentially_ts_le (B : Int)
    (existingRanges newRanges : List ExtendedRange)
    (hex : ∀ r ∈ existingRanges, r.creationTimestamp ≤ B)
    (hnew : ∀ r ∈ newRanges, r.creationTimestamp ≤ B) :
    ∀ r ∈ mergeRangesSequentially existingRanges newRanges,
      r.creationTimestamp ≤ B := by
  intro r hr
  unfold mergeRangesSequentially at hr
  dsimp only at hr
  have h1 := (sortByStart_mem _ r).mp hr
  have h2 := deduplicateRanges_mem _ r h1
  refine foldl_all (fun q => q.creationTimestamp ≤ B) _
    (fun q => q.creationTimestamp ≤ B) ?_ newRanges hnew existingRanges hex r h2
  intro acc x hx hacc q hq
  (try dsimp only at hq)
  split at hq
  · rcases List.mem_append.mp hq with h | h
    · exact hacc q (List.mem_of_mem_filter h)
    · have he := List.mem_singleton.mp h
      subst he
      exact hx
  · rcases List.mem_append.mp hq with h | h
    · rcases List.mem_append.mp h with h3 | h3
      · exact hacc q (List.mem_of_mem_filter h3)
      · exact resolve_foldl_ts_le B x hx _ ([], true)
          (fun z hz => absurd hz (List.not_mem_nil _))
          (fun z hz => hacc z (List.mem_of_mem_filter hz)) q h3
    · split at h
      · have he := List.mem_singleton.mp h
        subst he
        exact hx
      · exact absurd h (List.not_mem_nil _)

end Tabd

namespace Tabd

theorem foldl_min_le_init (l : List ExtendedRange) :
    ∀ a : Int, l.foldl (fun m r => min m r.creationTimestamp) a ≤ a := by
  induction l with
  | nil => exact fun a => le_refl a
  | cons x xs ih =>
      intro a
      simp only [List.foldl_cons]
      exact le_trans (ih (min a x.creationTimestamp)) (min_le_left _ _)

theorem emitGroup_ts_le (B : Int) (first : ExtendedRange)
    (rest : List ExtendedRange) (h1 : first.creationTimestamp ≤ B) :
    ∀ r ∈ emitGroup first rest, r.creationTimestamp ≤ B := by
  intro r hr
  unfold emitGroup at hr
  split at hr
  · rw [List.mem_singleton.mp hr]
    exact h1
  · rw [List.mem_singleton.mp hr, mkExtendedRange_ts]
    exact le_trans (foldl_min_le_init rest first.creationTimestamp) h1

theorem walkGroups_ts_le (B : Int) :
    ∀ (more : List ExtendedRange) (first : ExtendedRange)
      (rest : List ExtendedRange),
    first.creationTimestamp ≤ B →
    (∀ r ∈ more, r.creationTimestamp ≤ B) →
    ∀ r ∈ walkGroups first rest more, r.creationTimestamp ≤ B := by
  intro more
  induction more with
  | nil =>
      intro first rest h1 _ r hr
      exact emitGroup_ts_le B first rest h1 r hr
  | cons cur more ih =>
      intro first rest h1 hm r hr
      rw [walkGroups_cons] at hr
      split at hr
      · exact ih first (rest ++ [cur]) h1
          (fun x hx => hm x (List.mem_cons_of_mem cur hx)) r hr
      · rcases List.mem_append.mp hr with h | h
        · exact emitGroup_ts_le B first rest h1 r h
        · exact ih cur [] (hm cur (List.mem_cons_self cur more))
            (fun x hx => hm x (List.mem_cons_of_mem cur hx)) r h

theorem mergeUserEdits_ts_le (B : Int) (userEdits : List ExtendedRange)
    (hs : ∀ r ∈ userEdits, r.creationTimestamp ≤ B) :
    ∀ r ∈ mergeUserEdits userEdits, r.creationTimestamp ≤ B := by
  intro r hr
  unfold mergeUserEdits at hr
  dsimp only at hr
  split at hr
  · exact hs r hr
  · rcases List.mem_append.mp hr with h | h
    · rcases hsort : sortByStart (userEdits.filter isUserEdit) with _ | ⟨h0, t0⟩
      · rw [hsort] at h
        exact absurd h (List.not_mem_nil _)
      · rw [hsort] at h
        have hsorted : ∀ x ∈ h0 :: t0, x.creationTimestamp ≤ B := by
          intro x hx
          rw [← hsort] at hx
          exact hs x (List.mem_of_mem_filter ((sortByStart_mem _ x).mp hx))
        exact walkGroups_ts_le B t0 h0 []
          (hsorted h0 (List.mem_cons_self h0 t0))
          (fun x hx => hsorted x (List.mem_cons_of_mem h0 hx)) r h
    · exact hs r (List.mem_of_mem_filter h)

end Tabd

namespace Tabd

/-- One change record of the on-disk SerializedFileState payload
(extension.ts): endpoints, type, timestamp, author and the provenance
option fields.  The load path reads an optional aiType field; the save
path's object literal has no aiType property, which the embedding
renders as Option.none. -/
structure SerializedChange where
  start : Pos
  endPos : Pos
  ty : ExtendedRangeType
  creationTimestamp : Int
  author : String
  pasteUrl : String
  pasteTitle : String
  aiName : String
  aiModel : String
  aiExplanation : String
  aiType : Option String
deriving DecidableEq, Repr

/-- JavaScript || on strings: the left operand unless it is falsy (""). -/
def jsOrElse (a b : String) : String :=
  if a = "" then b else a

/-- The per-change serializer of the save handler (extension.ts
dataToSave): getters with || '' fallbacks, the author fallback chain
author || currentUser || (repository-like storage ? 'an unknown user'
: ''), and no aiType property. -/
def serializeChange (currentUser : String) (storageRepo : Bool)
    (change : ExtendedRange) : SerializedChange :=
  { start := change.start
    endPos := change.endPos
    ty := change.rangeType
    creationTimestamp := change.creationTimestamp
    author := jsOrElse change.author (jsOrElse currentUser
      (if storageRepo then "an unknown user" else ""))
    pasteUrl := jsOrElse change.options.pasteUrl ""
    pasteTitle := jsOrElse change.options.pasteTitle ""
    aiName := jsOrElse change.options.aiName ""
    aiModel := jsOrElse change.options.aiModel ""
    aiExplanation := jsOrElse change.options.aiExplanation ""
    aiType := Option.none }

/-- The changes field of dataToSave (extension.ts save handler):
coalesce the store, keep only changes created strictly after the load
timestamp, serialise. -/
def dataToSaveChanges (currentUser : String) (storageRepo : Bool)
    (changes : List ExtendedRange) (loadTimestamp : Int) :
    List SerializedChange :=
  ((mergeUserEdits changes).filter
      (fun change => loadTimestamp < change.creationTimestamp)).map
    (serializeChange currentUser storageRepo)

/-- The per-change deserializer of loadGlobalFileStateForDocumentFromDisk
(extension.ts): rebuild options with || "" fallbacks (including the
optional aiType) and construct the ExtendedRange, whose vscode.Range
base normalises inverted endpoints. -/
def deserializeChange (change : SerializedChange) : ExtendedRange :=
  mkExtendedRange ⟨change.start.line, change.start.character⟩
    ⟨change.endPos.line, change.endPos.character⟩
    change.ty change.creationTimestamp (jsOrElse change.author "")
    ⟨jsOrElse change.pasteUrl "", jsOrElse change.pasteTitle "",
     jsOrElse change.aiName "", jsOrElse change.aiModel "",
     jsOrElse change.aiExplanation "", (change.aiType.getD "")⟩

/-- Loading a single version-1 record file (extension.ts
loadGlobalFileStateForDocumentFromDisk): deserialise its changes and
merge them into the empty accumulated store. -/
def loadChanges (payload : List SerializedChange) : List ExtendedRange :=
  mergeRangesSequentially [] (payload.map deserializeChange)

/-- The load-then-save payload of a document with no intervening edits:
what the save handler serialises from the store the load path built. -/
def loadSaveRoundTrip (currentUser : String) (storageRepo : Bool)
    (payload : List SerializedChange) (loadTimestamp : Int) :
    List SerializedChange :=
  dataToSaveChanges currentUser storageRepo (loadChanges payload)
    loadTimestamp

/-- C6 counterexample: a loaded payload of one UserEdit created at
timestamp 1000, loaded with loadTimestamp 4999 (Date.now() − 1 at
load), saves as the empty payload, not as an equal payload: the save
filter keeps only changes created strictly after the load timestamp,
which no loaded change satisfies. -/
theorem loadSaveRoundTrip_not_identity :
    loadSaveRoundTrip "" true
        [⟨⟨0, 0⟩, ⟨0, 1⟩, ExtendedRangeType.UserEdit, 1000, "alice",
          "", "", "", "", "", Option.none⟩] 4999 = [] ∧
    ([⟨⟨0, 0⟩, ⟨0, 1⟩, ExtendedRangeType.UserEdit, 1000, "alice",
       "", "", "", "", "", Option.none⟩] : List SerializedChange) ≠ [] := by
  decide

/-- C6 (amended): the load-save round trip of a document with no
intervening edits yields the empty payload whenever every loaded change
was created no later than the load timestamp (always the case for a
real load, which stamps loadTimestamp with the current clock): the save
filter keeps only changes with creation_ts strictly greater than the
load timestamp, and neither the load-time merge nor the save-time
coalescing can raise a creation timestamp.  Moreover the serialised
records never carry an aiType field. -/
theorem loadSaveRoundTrip_empty (currentUser : String) (storageRepo : Bool)
    (payload : List SerializedChange) (loadTimestamp : Int)
    (h : ∀ c ∈ payload, c.creationTimestamp ≤ loadTimestamp) :
    loadSaveRoundTrip currentUser storageRepo payload loadTimestamp = [] ∧
    ∀ change : ExtendedRange,
      (serializeChange currentUser storageRepo change).aiType = Option.none := by
  constructor
  · have hload : ∀ r ∈ loadChanges payload, r.creationTimestamp ≤ loadTimestamp := by
      refine mergeRangesSequentially_ts_le loadTimestamp [] _ ?_ ?_
      · exact fun r hr => absurd hr (List.not_mem_nil _)
      · intro r hr
        obtain ⟨c, hc, hcr⟩ := List.mem_map.mp hr
        have : r.creationTimestamp = c.creationTimestamp := by
          rw [← hcr]
          unfold deserializeChange
          rw [mkExtendedRange_ts]
        rw [this]
        exact h c hc
    have hmerged : ∀ r ∈ mergeUserEdits (loadChanges payload),
        r.creationTimestamp ≤ loadTimestamp :=
      mergeUserEdits_ts_le loadTimestamp _ hload
    unfold loadSaveRoundTrip dataToSaveChanges
    rw [List.filter_eq_nil_iff.mpr]
    · rfl
    · intro a ha
      simp only [decide_eq_true_eq, not_lt]
      exact hmerged a ha
  · intro change
    rfl

theorem loadSaveRoundTrip_empty_witness :
    (∀ c ∈ ([⟨⟨0, 0⟩, ⟨0, 1⟩, ExtendedRangeType.UserEdit, 1000, "alice",
        "", "", "", "", "", Option.none⟩] : List SerializedChange),
      c.creationTimestamp ≤ 4999) ∧
    (loadSaveRoundTrip "" true
        [⟨⟨0, 0⟩, ⟨0, 1⟩, ExtendedRangeType.UserEdit, 1000, "alice",
          "", "", "", "", "", Option.none⟩] 4999 = [] ∧
     ∀ change : ExtendedRange,
       (serializeChange "" true change).aiType = Option.none) :=
  ⟨by decide,
   loadSaveRoundTrip_empty "" true
     [⟨⟨0, 0⟩, ⟨0, 1⟩, ExtendedRangeType.UserEdit, 1000, "alice",
       "", "", "", "", "", Option.none⟩] 4999 (by decide)⟩

end Tabd
